import Mathlib

/-!
Shallow embedding of the n-puzzle A* solver (src/n-puzzle.ipynb) and proofs
about it.

Conventions of the embedding:
* numpy integer arrays become `List (List Nat)`; machine integers are far from
  overflow here, so plain `Nat`/`Int` is exact.
* Python exceptions become `Except PyErr`; the constructors mirror the
  exceptions the code can actually raise (`IndexError` from `np.argwhere(...)[0]`
  and from `np.where` unpacking, `TypeError` from `x ** None`, `KeyError` from
  dict access).  `PyErr.invalidGrid` is modelled from the spec (section 7 names
  an InvalidGrid rejection); nothing in the code raises it.
* `State` caches `hash(content.tobytes())`; the hash function is a parameter
  `hashF : Grid → Int` of the search, since CPython's salted hash is start-up
  entropy.  Equality and ordering of `State` are hash equality / hash order,
  exactly as in the ipynb.
* `heapq` on tuples `(cost, State, path)` compares lexicographically by cost,
  then `State.__lt__` (hash), then list-of-namedtuple order; this is a total
  order, so the heap is modelled as a sorted list with min at the head.
* the global decorator counter `do_action.calls` and the reachability of the
  "relax if shorter" branch are recorded in ghost fields `calls` / `fired` of
  the search state; they influence nothing.
-/

namespace NPuzzle

/-- Python errors the embedded code can produce.  `invalidGrid` is modelled
from the spec: section 7 describes an InvalidGrid rejection for malformed
input, but no such check or exception exists anywhere in the source. -/
inductive PyErr where
  | indexError : PyErr
  | typeError : PyErr
  | keyError : PyErr
  | invalidGrid : PyErr
deriving DecidableEq, Repr

/-- A puzzle grid: the numpy 2-d array, row major. -/
abbrev Grid := List (List Nat)

/-- A cell position `(row, col)`. -/
abbrev Pos := Nat × Nat

/-- the namedtuple `Action(pos1, pos2)`. -/
structure Action where
  pos1 : Pos
  pos2 : Pos
deriving DecidableEq, Repr

/-- Read a cell; all uses are in bounds, the default is irrelevant junk. -/
def getCell (g : Grid) (p : Pos) : Nat := (g.getD p.1 []).getD p.2 0

/-- Write a cell (out-of-bounds writes are dead code for in-bounds actions). -/
def setCell (g : Grid) (p : Pos) (v : Nat) : Grid :=
  g.set p.1 ((g.getD p.1 []).set p.2 v)

/-- First index of `v` in a row, left to right. -/
def rowFind (row : List Nat) (v : Nat) : Option Nat :=
  match row with
  | [] => none
  | x :: xs => if x = v then some 0 else (rowFind xs v).map (· + 1)

/-- First position of `v` in a grid, row major: the `[0]` element of
`np.where(g == v)` / `np.argwhere(g == v)`. -/
def findVal (g : Grid) (v : Nat) : Option Pos :=
  match g with
  | [] => none
  | r :: rs =>
    match rowFind r v with
    | some j => some (0, j)
    | none => (findVal rs v).map (fun p => (p.1 + 1, p.2))

/-- `get_pos`: `np.argwhere(state == n)[0]`, raising IndexError if `n` is
absent from the grid. -/
def get_pos (state : Grid) (n : Nat) : Except PyErr Pos :=
  match findVal state n with
  | some p => Except.ok p
  | none => Except.error PyErr.indexError

/-- Distance `abs (x1 - x2)` between two coordinates (Python ints). -/
def natDist (a b : Nat) : Nat := ((a : Int) - (b : Int)).natAbs

/-- `manhattan_distance(state, goal, n, p)`: `(abs(x1-x2) + abs(y1-y2)) ** p`. -/
def manhattan_distance (state goal : Grid) (n : Nat) (p : Nat) : Except PyErr Nat := do
  let pos1 ← get_pos state n
  let pos2 ← get_pos goal n
  pure ((natDist pos1.1 pos2.1 + natDist pos1.2 pos2.2) ^ p)

/-- `fixed_heuristic(state, goal, step, exp, p)`.  The list comprehension is
evaluated before `** exp`, so a missing tile raises IndexError first; then
`exp = None` raises TypeError (`int ** None`). -/
def fixed_heuristic (state goal : Grid) (step : Option Nat) (e : Option Nat)
    (p : Nat) : Except PyErr Nat := do
  let puzzle_dim := state.length
  let terms ← (List.range (puzzle_dim ^ 2 - 1)).mapM
    (fun i => manhattan_distance state goal (i + 1) p)
  match e with
  | none => Except.error PyErr.typeError
  | some e0 => pure (terms.sum ^ e0)

/-- `STEP_SIZE` constant of the notebook. -/
def STEP_SIZE : Nat := 1000

/-- `TEMPERATURE` constant of the notebook. -/
def TEMPERATURE : Nat := 10

/-- Exponent used by `step_scheduling_heuristic`:
`min(1 + (step // STEP_SIZE) / TEMPERATURE, 2)` (exact rational value of the
float the code computes). -/
def step_scheduling_exponent (step : Nat) : ℚ :=
  min (1 + ((step / STEP_SIZE : Nat) : ℚ) / (TEMPERATURE : ℚ)) 2

/-- `step_scheduling_heuristic(state, goal, step, exp)`.  The float value the
code returns is `sum ** exponent` with a non-integral exponent; it is
represented exactly as the pair (Manhattan sum, exponent).  The `exp` argument
is ignored, exactly as in the code. -/
def step_scheduling_heuristic (state goal : Grid) (step : Nat)
    (e : Option Nat) : Except PyErr (Nat × ℚ) := do
  let puzzle_dim := state.length
  let terms ← (List.range (puzzle_dim ^ 2 - 1)).mapM
    (fun i => manhattan_distance state goal (i + 1) 1)
  pure (terms.sum, step_scheduling_exponent step)

/-- `arctan_scheduling_heuristic(state, goal, step, exp)`.  The float value is
`sum ** (atan(step / STEP_SIZE) + 1)`; it is represented exactly as the pair
(Manhattan sum, `step / STEP_SIZE`), the exponent being `atan` of the second
component plus one.  The `exp` argument is ignored, exactly as in the code. -/
def arctan_scheduling_heuristic (state goal : Grid) (step : Nat)
    (e : Option Nat) : Except PyErr (Nat × ℚ) := do
  let puzzle_dim := state.length
  let terms ← (List.range (puzzle_dim ^ 2 - 1)).mapM
    (fun i => manhattan_distance state goal (i + 1) 1)
  pure (terms.sum, (step : ℚ) / (STEP_SIZE : ℚ))

/-- `available_actions(state)`: locate the blank with `np.where(state == 0)`
(IndexError when there is no blank), then emit up, down, left, right moves
that stay in bounds, blank position first in each Action. -/
def available_actions (state : Grid) : Except PyErr (List Action) :=
  let puzzle_dim := state.length
  match findVal state 0 with
  | none => Except.error PyErr.indexError
  | some (x, y) =>
    let acts1 := if 0 < x then [Action.mk (x, y) (x - 1, y)] else []
    let acts2 := if x < puzzle_dim - 1 then [Action.mk (x, y) (x + 1, y)] else []
    let acts3 := if 0 < y then [Action.mk (x, y) (x, y - 1)] else []
    let acts4 := if y < puzzle_dim - 1 then [Action.mk (x, y) (x, y + 1)] else []
    Except.ok (acts1 ++ acts2 ++ acts3 ++ acts4)

/-- `do_action(state, action)` as the imperative code runs it: `new_state`
starts as a copy of `state`, the tuple on the right of the swap assignment is
read from it, both writes then hit `new_state` only.  The first component of
the result is the caller's array after the call (untouched, because of the
copy), the second is the returned new grid. -/
def do_action_run (state : Grid) (a : Action) : Grid × Grid :=
  let new_state := state
  let rhs1 := getCell new_state a.pos2
  let rhs2 := getCell new_state a.pos1
  let new_state1 := setCell new_state a.pos1 rhs1
  let new_state2 := setCell new_state1 a.pos2 rhs2
  (state, new_state2)

/-- The grid `do_action` returns. -/
def do_action (state : Grid) (a : Action) : Grid := (do_action_run state a).2

/-- `class State`: grid plus its cached hash; `__eq__` and `__lt__` use only
the hash. -/
structure State where
  content : Grid
  hash : Int
deriving Repr

/-- `State(g)` for a hash function `hashF`. -/
def mkState (hashF : Grid → Int) (g : Grid) : State := ⟨g, hashF g⟩

/-- A frontier element: the tuple `(cost, state, path)` pushed on the heap. -/
structure Entry where
  cost : Nat
  state : State
  path : List Action
deriving Repr

/-- Python `<` on positions (int-pair lexicographic). -/
def posLtB (p q : Pos) : Bool :=
  p.1 < q.1 || (p.1 = q.1 && p.2 < q.2)

/-- Python `<` on Actions (namedtuple = tuple lexicographic). -/
def actLtB (a b : Action) : Bool :=
  posLtB a.pos1 b.pos1 || (a.pos1 = b.pos1 && posLtB a.pos2 b.pos2)

/-- Python `<` on paths (list lexicographic, strict prefix is smaller). -/
def pathLtB : List Action → List Action → Bool
  | _, [] => false
  | [], _ :: _ => true
  | a :: as, b :: bs => actLtB a b || (a = b && pathLtB as bs)

/-- Python `<=` on heap tuples `(cost, State, path)`: cost first, then the
State hash (its `__eq__`/`__lt__`), then the path list. -/
def entryLe (e1 e2 : Entry) : Bool :=
  if e1.cost = e2.cost then
    if e1.state.hash = e2.state.hash then !(pathLtB e2.path e1.path)
    else e1.state.hash < e2.state.hash
  else e1.cost < e2.cost

/-- The heap as a sorted list: `heappush` inserts in order (`heappop` is the
head).  Faithful to `heapq` because `entryLe` is total and entries comparing
equal are identical in every component the algorithm reads. -/
def heappush (l : List Entry) (e : Entry) : List Entry :=
  match l with
  | [] => [e]
  | x :: xs => if entryLe e x then e :: x :: xs else x :: heappush xs e

/-- Dict read (`past_len[k]`), KeyError when absent.  The dict is an
association list whose most recent binding shadows older ones. -/
def dictGet (d : List (Int × Nat)) (k : Int) : Except PyErr Nat :=
  match d.lookup k with
  | some v => Except.ok v
  | none => Except.error PyErr.keyError

/-- Dict write (`past_len[k] = v`). -/
def dictSet (d : List (Int × Nat)) (k : Int) (v : Nat) : List (Int × Nat) :=
  (k, v) :: d

/-- Set insert (`closed_set.add(k)`). -/
def insertClosed (l : List Int) (k : Int) : List Int :=
  if l.contains k then l else k :: l

/-- The mutable state of one `astar` call.  `calls` is the global
`do_action.calls` counter (reset to 0 at call start, as `solve_instance`
does); `fired` is a ghost flag recording whether the second disjunct
`past_len[current] + 1 < past_len[neighbor]` of the neighbor test was ever
true with `neighbor` already in `closed_set`.  Neither influences control
flow. -/
structure SearchState where
  open_set : List Entry
  closed_set : List Int
  past_len : List (Int × Nat)
  steps : Nat
  calls : Nat
  fired : Bool
deriving Repr

/-- The body of the `if` in the neighbor loop: `past_len[neighbor] =
path_len(curr_path) + 1`, then the heuristic call (which may raise), then
`heappush` and `closed_set.add`. -/
def relaxPush (hashF : Grid → Int)
    (heur : Grid → Grid → Nat → Option Nat → Except PyErr Nat)
    (goalS : State) (e : Option Nat) (current : State)
    (curr_path : List Action) (a : Action) (σ : SearchState) :
    SearchState × Option PyErr :=
  let neighbor := mkState hashF (do_action current.content a)
  let g1 := curr_path.length + 1
  let σ2 := { σ with past_len := dictSet σ.past_len neighbor.hash g1 }
  match heur neighbor.content goalS.content σ2.steps e with
  | Except.error err => (σ2, some err)
  | Except.ok hv =>
    ({ σ2 with
        open_set := heappush σ2.open_set ⟨g1 + hv, neighbor, curr_path ++ [a]⟩
        closed_set := insertClosed σ2.closed_set neighbor.hash }, none)

/-- The `for action in available_actions(...)` loop of `astar`.  Each
iteration calls `do_action` (counted), tests
`neighbor not in closed_set or past_len[current] + 1 < past_len[neighbor]`
with Python short-circuit and dict KeyError semantics, and relaxes when the
test passes.  Errors abort the loop and propagate. -/
def processActs (hashF : Grid → Int)
    (heur : Grid → Grid → Nat → Option Nat → Except PyErr Nat)
    (goalS : State) (e : Option Nat) (current : State)
    (curr_path : List Action) :
    List Action → SearchState → SearchState × Option PyErr
  | [], σ => (σ, none)
  | a :: rest, σ =>
    let neighbor := mkState hashF (do_action current.content a)
    let σ1 : SearchState := { σ with calls := σ.calls + 1 }
    if σ1.closed_set.contains neighbor.hash then
      match dictGet σ1.past_len current.hash with
      | Except.error err => (σ1, some err)
      | Except.ok pc =>
        match dictGet σ1.past_len neighbor.hash with
        | Except.error err => (σ1, some err)
        | Except.ok pn =>
          if pc + 1 < pn then
            match relaxPush hashF heur goalS e current curr_path a
                { σ1 with fired := true } with
            | (σ2, some err) => (σ2, some err)
            | (σ2, none) => processActs hashF heur goalS e current curr_path rest σ2
          else processActs hashF heur goalS e current curr_path rest σ1
    else
      match relaxPush hashF heur goalS e current curr_path a σ1 with
      | (σ2, some err) => (σ2, some err)
      | (σ2, none) => processActs hashF heur goalS e current curr_path rest σ2

/-- The `while open_set:` loop of `astar`, fuelled.  Each pass pops the head,
runs the `steps % 10000 == 0` logging line (whose f-string evaluates
`fixed_heuristic(current.content, goal.content, exp=1, p=1)` and can raise),
tests the goal by hash equality, otherwise expands the neighbors and recurses
with `steps += 1`.  Result `none` means the fuel ran out with the search still
going; the final `SearchState` is returned in every case. -/
def astarLoop (hashF : Grid → Int)
    (heur : Grid → Grid → Nat → Option Nat → Except PyErr Nat)
    (goalS : State) (e : Option Nat) :
    Nat → SearchState → Option (Except PyErr (Bool × List Action)) × SearchState
  | 0, σ => (none, σ)
  | fuel + 1, σ =>
    match h : σ.open_set with
    | [] => (some (Except.ok (false, [])), σ)
    | en :: rest =>
      let logRes : Except PyErr Nat :=
        if σ.steps % 10000 = 0 then
          fixed_heuristic en.state.content goalS.content none (some 1) 1
        else Except.ok 0
      match logRes with
      | Except.error err => (some (Except.error err), σ)
      | Except.ok _ =>
        if en.state.hash = goalS.hash then
          (some (Except.ok (true, en.path)), σ)
        else
          match available_actions en.state.content with
          | Except.error err => (some (Except.error err), { σ with open_set := rest })
          | Except.ok acts =>
            match processActs hashF heur goalS e en.state en.path acts
                { σ with open_set := rest } with
            | (σ2, some err) => (some (Except.error err), σ2)
            | (σ2, none) =>
              astarLoop hashF heur goalS e fuel { σ2 with steps := σ2.steps + 1 }

/-- `astar(state, goal, heuristic, exp)`: wrap the two grids as `State`s,
seed `past_len = {state: 0}`, push `(0, state, [])`, add `state` to
`closed_set`, and run the loop.  Returns the result (or `none` when the fuel
ran out) together with the final instrumented search state. -/
def astar (hashF : Grid → Int)
    (heur : Grid → Grid → Nat → Option Nat → Except PyErr Nat)
    (state goal : Grid) (e : Option Nat) (fuel : Nat) :
    Option (Except PyErr (Bool × List Action)) × SearchState :=
  let s := mkState hashF state
  let g := mkState hashF goal
  astarLoop hashF heur g e fuel
    { open_set := heappush [] ⟨0, s, []⟩
      closed_set := insertClosed [] s.hash
      past_len := dictSet [] s.hash 0
      steps := 0
      calls := 0
      fired := false }

/-- `set_goal(puzzle_dim)` builds the flat list `[1, ..., d*d - 1, 0]`. -/
def flatGoal (d : Nat) : List Nat := (List.range (d * d - 1)).map (· + 1) ++ [0]

/-- Helper for `chunks`, structurally recursive on a fuel that bounds the
number of rows (each step consumes at least one element). -/
def chunksGo (n : Nat) : Nat → List Nat → List (List Nat)
  | 0, _ => []
  | _, [] => []
  | fuel + 1, x :: xs => (x :: List.take (n - 1) xs) :: chunksGo n fuel (List.drop (n - 1) xs)

/-- Reshape a flat list into rows of `n` (the `reshape(d, d)`); rows of zero
width behave as width one, the degenerate `d = 0` case numpy rejects. -/
def chunks (n : Nat) (l : List Nat) : List (List Nat) := chunksGo n l.length l

/-- `set_goal(d)`: the conventional goal grid, row-major `1 .. d*d-1` then the
blank. -/
def set_goal (d : Nat) : Grid := chunks d (flatGoal d)

/-- The heuristic argument `astar` actually receives for the fixed strategy:
`fixed_heuristic` with its default `p = 1`, `step`/`exp` forwarded by keyword. -/
def fixedHeur (state goal : Grid) (step : Nat) (e : Option Nat) :
    Except PyErr Nat :=
  fixed_heuristic state goal (some step) e 1

/-- Injective stand-in for CPython's `hash(content.tobytes())`: an exact
pairing-based encoding of the grid. -/
def encList (l : List Nat) : Nat := l.foldr (fun a r => Nat.pair a r + 1) 0

/-- Grid hash used for concrete runs: encode rows, then the list of codes. -/
def gridHash (g : Grid) : Int := (encList (g.map encList) : Nat)

/-! ### Basic cell lemmas -/

theorem getD_set_general {α : Type} (l : List α) (i j : Nat) (v d : α) :
    (l.set i v).getD j d = if i = j ∧ i < l.length then v else l.getD j d := by
  induction l generalizing i j with
  | nil => simp
  | cons x xs ih =>
    cases i with
    | zero =>
      cases j with
      | zero => simp
      | succ j2 => simp
    | succ i2 =>
      cases j with
      | zero => simp
      | succ j2 =>
        simp only [List.set_cons_succ, List.getD_cons_succ, List.length_cons, ih]
        by_cases hij : i2 = j2 <;> simp [hij, Nat.succ_lt_succ_iff]

/-- Positions usable by numpy indexing on this grid. -/
def inBounds (g : Grid) (p : Pos) : Prop :=
  p.1 < g.length ∧ p.2 < (g.getD p.1 []).length

instance (g : Grid) (p : Pos) : Decidable (inBounds g p) := by
  unfold inBounds; infer_instance

theorem length_setCell (g : Grid) (p : Pos) (v : Nat) :
    (setCell g p v).length = g.length := by
  unfold setCell; exact List.length_set ..

theorem rowlen_setCell (g : Grid) (p : Pos) (v : Nat) (i : Nat) :
    ((setCell g p v).getD i []).length = (g.getD i []).length := by
  unfold setCell
  rw [getD_set_general]
  split
  · rename_i hc
    rw [List.length_set, hc.1]
  · rfl

theorem getCell_setCell (g : Grid) (p q : Pos) (v : Nat) :
    getCell (setCell g p v) q =
      if p = q ∧ inBounds g p then v else getCell g q := by
  unfold getCell setCell inBounds
  rw [getD_set_general]
  by_cases hrow : p.1 = q.1 ∧ p.1 < g.length
  · rw [if_pos hrow, getD_set_general]
    by_cases hcol : p.2 = q.2 ∧ p.2 < (g.getD p.1 []).length
    · rw [if_pos hcol, if_pos]
      exact ⟨Prod.ext hrow.1 hcol.1, hrow.2, hcol.2⟩
    · rw [if_neg hcol, if_neg, hrow.1]
      rintro ⟨rfl, hb⟩
      exact hcol ⟨rfl, hb.2⟩
  · rw [if_neg hrow, if_neg]
    rintro ⟨rfl, hb⟩
    exact hrow ⟨rfl, hb.1⟩

theorem do_action_eq (g : Grid) (a : Action) :
    do_action g a =
      setCell (setCell g a.pos1 (getCell g a.pos2)) a.pos2 (getCell g a.pos1) := rfl

theorem length_do_action (g : Grid) (a : Action) :
    (do_action g a).length = g.length := by
  rw [do_action_eq, length_setCell, length_setCell]

theorem rowlen_do_action (g : Grid) (a : Action) (i : Nat) :
    ((do_action g a).getD i []).length = (g.getD i []).length := by
  rw [do_action_eq, rowlen_setCell, rowlen_setCell]

theorem inBounds_do_action (g : Grid) (a : Action) (p : Pos) :
    inBounds (do_action g a) p ↔ inBounds g p := by
  unfold inBounds
  rw [length_do_action, rowlen_do_action]

/-- Cell-level description of `do_action` for in-bounds actions: the two
referenced cells are swapped, everything else is untouched. -/
theorem getCell_do_action (g : Grid) (a : Action) (q : Pos)
    (h1 : inBounds g a.pos1) (h2 : inBounds g a.pos2) :
    getCell (do_action g a) q =
      if q = a.pos2 then getCell g a.pos1
      else if q = a.pos1 then getCell g a.pos2
      else getCell g q := by
  rw [do_action_eq, getCell_setCell, getCell_setCell]
  have hb1 : inBounds (setCell g a.pos1 (getCell g a.pos2)) a.pos2 := by
    unfold inBounds
    rw [length_setCell, rowlen_setCell]
    exact h2
  by_cases hq2 : q = a.pos2
  · rw [if_pos ⟨hq2.symm, hb1⟩, if_pos hq2]
  · rw [if_neg (fun hc => hq2 hc.1.symm), if_neg hq2]
    by_cases hq1 : q = a.pos1
    · rw [if_pos ⟨hq1.symm, h1⟩, if_pos hq1]
    · rw [if_neg (fun hc => hq1 hc.1.symm), if_neg hq1]

/-- C7: for every grid and in-bounds action, `do_action` returns a new grid
equal to the input with the two referenced cells swapped (same shape,
swapped cells, all other cells unchanged), and the caller's input array is
unchanged after the call (the function writes only to its copy). -/
theorem do_action_swaps_and_preserves_input (g : Grid) (a : Action)
    (h1 : inBounds g a.pos1) (h2 : inBounds g a.pos2) :
    (do_action_run g a).1 = g ∧
    getCell (do_action g a) a.pos1 = getCell g a.pos2 ∧
    getCell (do_action g a) a.pos2 = getCell g a.pos1 ∧
    (∀ q : Pos, q ≠ a.pos1 → q ≠ a.pos2 → getCell (do_action g a) q = getCell g q) ∧
    (do_action g a).length = g.length ∧
    (∀ i : Nat, ((do_action g a).getD i []).length = (g.getD i []).length) := by
  refine ⟨rfl, ?_, ?_, ?_, length_do_action g a, fun i => rowlen_do_action g a i⟩
  · rw [getCell_do_action g a _ h1 h2]
    by_cases h12 : a.pos1 = a.pos2
    · rw [if_pos h12, h12]
    · rw [if_neg h12, if_pos rfl]
  · rw [getCell_do_action g a _ h1 h2, if_pos rfl]
  · intro q hq1 hq2
    rw [getCell_do_action g a _ h1 h2, if_neg hq2, if_neg hq1]

/-- Witness for C7 on a concrete 2 by 2 grid and action. -/
theorem do_action_swaps_witness :
    (do_action_run [[1, 2], [0, 3]] ⟨(1, 0), (1, 1)⟩).1 = [[1, 2], [0, 3]] ∧
    getCell (do_action [[1, 2], [0, 3]] ⟨(1, 0), (1, 1)⟩) (1, 0) = 3 := by
  have h := do_action_swaps_and_preserves_input [[1, 2], [0, 3]] ⟨(1, 0), (1, 1)⟩
    (by decide) (by decide)
  exact ⟨h.1, by rw [h.2.1]; rfl⟩


/-! ### Locating values in a grid -/

theorem rowFind_spec (row : List Nat) (v j : Nat) (h : rowFind row v = some j) :
    j < row.length ∧ row.getD j 0 = v := by
  induction row generalizing j with
  | nil => simp [rowFind] at h
  | cons x xs ih =>
    by_cases hx : x = v
    · simp [rowFind, hx] at h
      subst h
      exact ⟨Nat.succ_pos _, hx⟩
    · simp [rowFind, hx] at h
      obtain ⟨j2, hj2, rfl⟩ := h
      have := ih j2 hj2
      refine ⟨Nat.succ_lt_succ this.1, ?_⟩
      rw [List.getD_cons_succ]
      exact this.2

theorem findVal_spec (g : Grid) (v : Nat) (x y : Nat)
    (h : findVal g v = some (x, y)) :
    x < g.length ∧ y < (g.getD x []).length ∧ getCell g (x, y) = v := by
  induction g generalizing x with
  | nil => simp [findVal] at h
  | cons r rs ih =>
    unfold findVal at h
    cases hr : rowFind r v with
    | some j =>
      rw [hr] at h
      simp at h
      obtain ⟨rfl, rfl⟩ := h
      have := rowFind_spec r v j hr
      refine ⟨Nat.succ_pos _, ?_, ?_⟩
      · rw [List.getD_cons_zero]
        exact this.1
      · unfold getCell
        rw [List.getD_cons_zero]
        exact this.2
    | none =>
      rw [hr, Option.map_eq_some'] at h
      obtain ⟨⟨x2, y2⟩, hfv, heq⟩ := h
      have hx2 : x2 + 1 = x := congrArg Prod.fst heq
      have hy2 : y2 = y := congrArg Prod.snd heq
      subst hy2
      subst hx2
      have := ih x2 hfv
      refine ⟨Nat.succ_lt_succ this.1, ?_, ?_⟩
      · rw [List.getD_cons_succ]
        exact this.2.1
      · unfold getCell at this ⊢
        rw [List.getD_cons_succ]
        exact this.2.2

theorem getD_mem_of_lt {α : Type} (l : List α) (n : Nat) (d : α)
    (h : n < l.length) : l.getD n d ∈ l := by
  induction l generalizing n with
  | nil => simp at h
  | cons x xs ih =>
    cases n with
    | zero => simp
    | succ n2 =>
      rw [List.getD_cons_succ]
      exact List.mem_cons_of_mem _ (ih n2 (Nat.lt_of_succ_lt_succ h))

theorem mem_ite_singleton {c : Prop} [Decidable c] (e a : Action) :
    (a ∈ if c then [e] else []) ↔ c ∧ a = e := by
  split <;> rename_i hc <;> simp [hc]

/-- C9: every Action emitted by `available_actions` is ordered blank-first:
`pos1` is the blank's position, `pos2` is a distinct, orthogonally adjacent
position. -/
theorem available_actions_pos1_is_blank (g : Grid) (x y : Nat)
    (hblank : findVal g 0 = some (x, y)) :
    ∃ acts, available_actions g = Except.ok acts ∧
      ∀ a ∈ acts, a.pos1 = (x, y) ∧ a.pos2 ≠ a.pos1 ∧
        natDist a.pos2.1 x + natDist a.pos2.2 y = 1 := by
  refine ⟨_, by unfold available_actions; rw [hblank], ?_⟩
  intro a ha
  simp only [List.mem_append, mem_ite_singleton] at ha
  rcases ha with ((⟨hc, rfl⟩ | ⟨hc, rfl⟩) | ⟨hc, rfl⟩) | ⟨hc, rfl⟩ <;>
    refine ⟨rfl, ?_, ?_⟩ <;>
    simp [natDist, Prod.ext_iff] <;> omega

/-- Witness for C9 on a concrete grid. -/
theorem available_actions_pos1_is_blank_witness :
    ∃ acts, available_actions [[1, 2], [0, 3]] = Except.ok acts ∧
      ∀ a ∈ acts, a.pos1 = (1, 0) ∧ a.pos2 ≠ a.pos1 ∧
        natDist a.pos2.1 1 + natDist a.pos2.2 0 = 1 :=
  available_actions_pos1_is_blank [[1, 2], [0, 3]] 1 0 rfl

/-- C6 as stated is false in the degenerate 1 by 1 case: the grid `[[0]]` has
exactly one 0, its blank sits at the (only) corner `(0, 0)`, yet
`available_actions` returns 0 actions, not 2. -/
theorem available_actions_corner_1x1 :
    (([[0]] : Grid).map (fun r => r.count 0)).sum = 1 ∧
    findVal [[0]] 0 = some (0, 0) ∧
    (0 = 0 ∨ 0 = ([[0]] : Grid).length - 1) ∧
    available_actions [[0]] = Except.ok [] ∧
    ([] : List Action).length ≠ 2 :=
  ⟨rfl, rfl, Or.inl rfl, rfl, by decide⟩

/-- C6 (amended to puzzles of dimension at least 2): `available_actions`
emits exactly the Actions pairing the blank with each in-bounds orthogonal
neighbor, in the fixed order up, down, left, right; 2 of them at a corner,
3 on a non-corner edge cell, 4 in the interior. -/
theorem available_actions_spec (N : Nat) (g : Grid) (x y : Nat)
    (hN : 2 ≤ N) (hlen : g.length = N) (hrows : ∀ r ∈ g, r.length = N)
    (hblank : findVal g 0 = some (x, y)) :
    ∃ acts, available_actions g = Except.ok acts ∧
      acts = (if 0 < x then [⟨(x, y), (x - 1, y)⟩] else []) ++
             (if x < N - 1 then [⟨(x, y), (x + 1, y)⟩] else []) ++
             (if 0 < y then [⟨(x, y), (x, y - 1)⟩] else []) ++
             (if y < N - 1 then [⟨(x, y), (x, y + 1)⟩] else []) ∧
      (∀ a : Action, a ∈ acts ↔ a.pos1 = (x, y) ∧ a.pos2.1 < N ∧ a.pos2.2 < N ∧
        natDist a.pos2.1 x + natDist a.pos2.2 y = 1) ∧
      (((x = 0 ∨ x = N - 1) ∧ (y = 0 ∨ y = N - 1)) → acts.length = 2) ∧
      ((((x = 0 ∨ x = N - 1) ∧ ¬(y = 0 ∨ y = N - 1)) ∨
        (¬(x = 0 ∨ x = N - 1) ∧ (y = 0 ∨ y = N - 1))) → acts.length = 3) ∧
      ((¬(x = 0 ∨ x = N - 1) ∧ ¬(y = 0 ∨ y = N - 1)) → acts.length = 4) := by
  have hspec := findVal_spec g 0 x y hblank
  have hx : x < N := hlen ▸ hspec.1
  have hy : y < N := by
    have hmem : g.getD x [] ∈ g := getD_mem_of_lt g x [] hspec.1
    have hr := hrows _ hmem
    have h2 := hspec.2.1
    rw [hr] at h2
    exact h2
  refine ⟨_, by unfold available_actions; rw [hblank, hlen], rfl, ?_, ?_, ?_, ?_⟩
  · intro a
    obtain ⟨p1, p2⟩ := a
    simp only [List.mem_append, mem_ite_singleton]
    constructor
    · rintro (((⟨hc, heq⟩ | ⟨hc, heq⟩) | ⟨hc, heq⟩) | ⟨hc, heq⟩) <;>
        injection heq with e1 e2 <;> subst e1 <;> subst e2 <;>
        refine ⟨rfl, ?_, ?_, ?_⟩ <;> simp [natDist] <;> omega
    · rintro ⟨hp1, hb1, hb2, hdist⟩
      subst hp1
      obtain ⟨q1, q2⟩ := p2
      simp only [natDist, Prod.fst, Prod.snd] at hdist hb1 hb2
      simp only [Prod.ext_iff, Action.mk.injEq, Prod.mk.injEq, true_and, and_true]
      omega
  all_goals intro hcase
  all_goals split_ifs <;>
    simp only [List.length_append, List.length_singleton, List.length_nil] <;> omega

/-- Witness for C6: on `[[1, 2], [0, 3]]` the blank `(1, 0)` is at a corner
of the 2 by 2 grid and gets exactly 2 actions. -/
theorem available_actions_spec_witness :
    ∃ acts, available_actions [[1, 2], [0, 3]] = Except.ok acts ∧ acts.length = 2 := by
  obtain ⟨acts, hok, _, _, hcorner, _⟩ :=
    available_actions_spec 2 [[1, 2], [0, 3]] 1 0 (by decide) rfl
      (by intro r hr; simp at hr; rcases hr with rfl | rfl <;> rfl) rfl
  exact ⟨acts, hok, hcorner ⟨Or.inr rfl, Or.inl rfl⟩⟩


/-! ### Heuristic success and failure lemmas -/

theorem exists_error_of_bind_typeError (x : Except PyErr (List Nat)) :
    ∃ err, (x >>= fun _ => (Except.error PyErr.typeError : Except PyErr Nat)) =
      Except.error err := by
  cases x with
  | error e => exact ⟨e, rfl⟩
  | ok t => exact ⟨PyErr.typeError, rfl⟩

theorem manhattan_distance_ok (s g : Grid) (n p : Nat) (p1 p2 : Pos)
    (h1 : findVal s n = some p1) (h2 : findVal g n = some p2) :
    manhattan_distance s g n p =
      Except.ok ((natDist p1.1 p2.1 + natDist p1.2 p2.2) ^ p) := by
  unfold manhattan_distance get_pos
  rw [h1, h2]
  rfl

/-- C10: `fixed_heuristic` never succeeds when `exp` is left unset (the
`** None` raises; with a malformed grid the missing-tile lookup raises first),
while the two scheduled heuristics ignore `exp` entirely and tolerate the
unset case (shown on a well-formed instance). -/
theorem fixed_heuristic_errors_when_exp_unset :
    (∀ (s g : Grid) (st : Option Nat) (p : Nat),
      ∃ err, fixed_heuristic s g st none p = Except.error err) ∧
    (∀ (s g : Grid) (st : Nat) (e1 e2 : Option Nat),
      step_scheduling_heuristic s g st e1 = step_scheduling_heuristic s g st e2) ∧
    (∀ (s g : Grid) (st : Nat) (e1 e2 : Option Nat),
      arctan_scheduling_heuristic s g st e1 = arctan_scheduling_heuristic s g st e2) ∧
    (∃ v, step_scheduling_heuristic [[1, 2], [0, 3]] [[1, 2], [3, 0]] 0 none =
      Except.ok v) ∧
    (∃ v, arctan_scheduling_heuristic [[1, 2], [0, 3]] [[1, 2], [3, 0]] 0 none =
      Except.ok v) := by
  refine ⟨?_, fun s g st e1 e2 => rfl, fun s g st e1 e2 => rfl, ⟨_, rfl⟩, ⟨_, rfl⟩⟩
  intro s g st p
  exact exists_error_of_bind_typeError
    ((List.range (s.length ^ 2 - 1)).mapM (fun i => manhattan_distance s g (i + 1) p))

/-- C8: `astar` is deterministic: it is a pure function of the hash function,
heuristic, grids, exponent and fuel, so identical calls return identical
results; in particular two successful identical calls return paths of the
same length. -/
theorem astar_deterministic (hashF : Grid → Int)
    (heur : Grid → Grid → Nat → Option Nat → Except PyErr Nat)
    (s g : Grid) (e : Option Nat) (fuel : Nat) :
    astar hashF heur s g e fuel = astar hashF heur s g e fuel ∧
    ∀ p1 p2, (astar hashF heur s g e fuel).1 = some (Except.ok (true, p1)) →
      (astar hashF heur s g e fuel).1 = some (Except.ok (true, p2)) →
      p1.length = p2.length := by
  refine ⟨rfl, fun p1 p2 h1 h2 => ?_⟩
  rw [h1] at h2
  simp at h2
  rw [h2]

/-- Witness for C8 on a concrete solved instance. -/
theorem astar_deterministic_witness :
    ([Action.mk (1, 0) (1, 1)] : List Action).length =
      ([Action.mk (1, 0) (1, 1)] : List Action).length :=
  (astar_deterministic gridHash fixedHeur [[1, 2], [0, 3]] [[1, 2], [3, 0]]
    (some 1) 5).2 _ _ rfl rfl

/-! ### Concrete runs: the malformed grid and the relax branch -/

/-- C4 counterexample: on the duplicate-value grid `[[1, 1], [2, 0]]` the
solver does not reject with an InvalidGrid error; it raises IndexError (from
`get_pos` looking up the absent tile 3 inside the logging call to
`fixed_heuristic`) on the very first loop pass. -/
theorem astar_malformed_not_invalidGrid :
    (astar gridHash fixedHeur [[1, 1], [2, 0]] (set_goal 2) (some 1) 1).1 =
      some (Except.error PyErr.indexError) ∧
    PyErr.indexError ≠ PyErr.invalidGrid :=
  ⟨rfl, by decide⟩

/-- C4 (amended): on `[[1, 1], [2, 0]]` the solver does abort before any
expansion — zero `do_action` calls — but with an uncaught IndexError from the
heuristic's missing-value lookup, not with a dedicated InvalidGrid check. -/
theorem astar_malformed_fails_before_expansion :
    (astar gridHash fixedHeur [[1, 1], [2, 0]] (set_goal 2) (some 1) 1).1 =
      some (Except.error PyErr.indexError) ∧
    (astar gridHash fixedHeur [[1, 1], [2, 0]] (set_goal 2) (some 1) 1).2.calls = 0 :=
  ⟨rfl, rfl⟩

/-- A concrete solvable 3-puzzle instance on which the "relax if shorter"
disjunct of the neighbor test fires (at the 11th pop) with the plain
admissible fixed heuristic. -/
def c3start : Grid := [[5, 1, 3], [4, 0, 8], [7, 6, 2]]

/-- C3 counterexample: the condition `past_len[current] + 1 < past_len[neighbor]`
is true with `neighbor` already in the closed set during a real run of `astar`
on `c3start` with `fixed_heuristic`, `exp = 1`: the `fired` ghost flag is set. -/
theorem relax_branch_fires :
    (astar gridHash fixedHeur c3start (set_goal 3) (some 1) 12).2.fired = true := rfl

/-- C3 (amended): the "relax if shorter" disjunct is reachable: on `c3start`
with the admissible fixed heuristic the search re-enqueues a closed state
rediscovered through a strictly shorter path, and still terminates with a
successful 14-move solution. -/
theorem relax_branch_reachable_in_successful_run :
    (astar gridHash fixedHeur c3start (set_goal 3) (some 1) 300).2.fired = true ∧
    ∃ p, (astar gridHash fixedHeur c3start (set_goal 3) (some 1) 300).1 =
      some (Except.ok (true, p)) ∧ p.length = 14 := by
  refine ⟨rfl, ⟨[⟨(1, 1), (2, 1)⟩, ⟨(2, 1), (2, 2)⟩, ⟨(2, 2), (1, 2)⟩, ⟨(1, 2), (1, 1)⟩,
    ⟨(1, 1), (2, 1)⟩, ⟨(2, 1), (2, 0)⟩, ⟨(2, 0), (1, 0)⟩, ⟨(1, 0), (0, 0)⟩,
    ⟨(0, 0), (0, 1)⟩, ⟨(0, 1), (1, 1)⟩, ⟨(1, 1), (1, 0)⟩, ⟨(1, 0), (2, 0)⟩,
    ⟨(2, 0), (2, 1)⟩, ⟨(2, 1), (2, 2)⟩], rfl, rfl⟩⟩


/-! ### Stepping lemmas for symbolic execution of the search -/

theorem processActs_nil (hashF : Grid → Int)
    (heur : Grid → Grid → Nat → Option Nat → Except PyErr Nat)
    (goalS : State) (e : Option Nat) (current : State) (curr_path : List Action)
    (σ : SearchState) :
    processActs hashF heur goalS e current curr_path [] σ = (σ, none) := rfl

theorem processActs_cons_new (hashF : Grid → Int)
    (heur : Grid → Grid → Nat → Option Nat → Except PyErr Nat)
    (goalS : State) (e : Option Nat) (current : State) (curr_path : List Action)
    (a : Action) (acts : List Action) (σ : SearchState) (hv : Nat)
    (hnc : σ.closed_set.contains (hashF (do_action current.content a)) = false)
    (hheur : heur (do_action current.content a) goalS.content σ.steps e = Except.ok hv) :
    processActs hashF heur goalS e current curr_path (a :: acts) σ =
      processActs hashF heur goalS e current curr_path acts
        { σ with
          calls := σ.calls + 1
          past_len := dictSet σ.past_len (hashF (do_action current.content a))
            (curr_path.length + 1)
          open_set := heappush σ.open_set
            ⟨curr_path.length + 1 + hv, mkState hashF (do_action current.content a),
              curr_path ++ [a]⟩
          closed_set := insertClosed σ.closed_set
            (hashF (do_action current.content a)) } := by
  conv_lhs => unfold processActs
  dsimp only [mkState]
  rw [if_neg (by rw [hnc]; exact Bool.false_ne_true)]
  unfold relaxPush
  dsimp only [mkState]
  rw [hheur]

theorem processActs_cons_skip (hashF : Grid → Int)
    (heur : Grid → Grid → Nat → Option Nat → Except PyErr Nat)
    (goalS : State) (e : Option Nat) (current : State) (curr_path : List Action)
    (a : Action) (acts : List Action) (σ : SearchState) (pc pn : Nat)
    (hc : σ.closed_set.contains (hashF (do_action current.content a)) = true)
    (hpc : dictGet σ.past_len current.hash = Except.ok pc)
    (hpn : dictGet σ.past_len (hashF (do_action current.content a)) = Except.ok pn)
    (hge : ¬ pc + 1 < pn) :
    processActs hashF heur goalS e current curr_path (a :: acts) σ =
      processActs hashF heur goalS e current curr_path acts
        { σ with calls := σ.calls + 1 } := by
  conv_lhs => unfold processActs
  dsimp only [mkState]
  rw [if_pos hc, hpc, hpn]
  dsimp only
  rw [if_neg hge]

theorem processActs_cons_fire (hashF : Grid → Int)
    (heur : Grid → Grid → Nat → Option Nat → Except PyErr Nat)
    (goalS : State) (e : Option Nat) (current : State) (curr_path : List Action)
    (a : Action) (acts : List Action) (σ : SearchState) (pc pn hv : Nat)
    (hc : σ.closed_set.contains (hashF (do_action current.content a)) = true)
    (hpc : dictGet σ.past_len current.hash = Except.ok pc)
    (hpn : dictGet σ.past_len (hashF (do_action current.content a)) = Except.ok pn)
    (hlt : pc + 1 < pn)
    (hheur : heur (do_action current.content a) goalS.content σ.steps e = Except.ok hv) :
    processActs hashF heur goalS e current curr_path (a :: acts) σ =
      processActs hashF heur goalS e current curr_path acts
        { σ with
          calls := σ.calls + 1
          fired := true
          past_len := dictSet σ.past_len (hashF (do_action current.content a))
            (curr_path.length + 1)
          open_set := heappush σ.open_set
            ⟨curr_path.length + 1 + hv, mkState hashF (do_action current.content a),
              curr_path ++ [a]⟩
          closed_set := insertClosed σ.closed_set
            (hashF (do_action current.content a)) } := by
  conv_lhs => unfold processActs
  dsimp only [mkState]
  rw [if_pos hc, hpc, hpn]
  dsimp only
  rw [if_pos hlt]
  unfold relaxPush
  dsimp only [mkState]
  rw [hheur]

theorem astarLoop_empty (hashF : Grid → Int)
    (heur : Grid → Grid → Nat → Option Nat → Except PyErr Nat)
    (goalS : State) (e : Option Nat) (fuel : Nat) (σ : SearchState)
    (hopen : σ.open_set = []) :
    astarLoop hashF heur goalS e (fuel + 1) σ = (some (Except.ok (false, [])), σ) := by
  unfold astarLoop
  rw [hopen]

theorem astarLoop_pop_goal (hashF : Grid → Int)
    (heur : Grid → Grid → Nat → Option Nat → Except PyErr Nat)
    (goalS : State) (e : Option Nat) (fuel : Nat) (σ : SearchState)
    (en : Entry) (rest : List Entry) (w : Nat)
    (hopen : σ.open_set = en :: rest)
    (hlog : (if σ.steps % 10000 = 0 then
      fixed_heuristic en.state.content goalS.content none (some 1) 1
      else Except.ok 0) = Except.ok w)
    (hgoal : en.state.hash = goalS.hash) :
    astarLoop hashF heur goalS e (fuel + 1) σ = (some (Except.ok (true, en.path)), σ) := by
  unfold astarLoop
  rw [hopen]
  dsimp only
  rw [hlog]
  dsimp only
  rw [if_pos hgoal]

theorem astarLoop_pop_expand (hashF : Grid → Int)
    (heur : Grid → Grid → Nat → Option Nat → Except PyErr Nat)
    (goalS : State) (e : Option Nat) (fuel : Nat) (σ σ2 : SearchState)
    (en : Entry) (rest : List Entry) (w : Nat) (acts : List Action)
    (hopen : σ.open_set = en :: rest)
    (hlog : (if σ.steps % 10000 = 0 then
      fixed_heuristic en.state.content goalS.content none (some 1) 1
      else Except.ok 0) = Except.ok w)
    (hgoal : ¬ en.state.hash = goalS.hash)
    (hacts : available_actions en.state.content = Except.ok acts)
    (hproc : processActs hashF heur goalS e en.state en.path acts
      { σ with open_set := rest } = (σ2, none)) :
    astarLoop hashF heur goalS e (fuel + 1) σ =
      astarLoop hashF heur goalS e fuel { σ2 with steps := σ2.steps + 1 } := by
  conv_lhs => unfold astarLoop
  rw [hopen]
  dsimp only
  rw [hlog]
  dsimp only
  rw [if_neg hgoal]
  rw [hacts]
  dsimp only
  rw [hproc]

theorem heappush_single (x e : Entry) (h : entryLe e x = true) :
    heappush [x] e = [e, x] := by
  unfold heappush
  rw [if_pos h]

theorem astar_eq_loop (hashF : Grid → Int)
    (heur : Grid → Grid → Nat → Option Nat → Except PyErr Nat)
    (state goal : Grid) (e : Option Nat) (fuel : Nat) :
    astar hashF heur state goal e fuel =
      astarLoop hashF heur (mkState hashF goal) e fuel
        { open_set := [⟨0, mkState hashF state, []⟩]
          closed_set := [(mkState hashF state).hash]
          past_len := [((mkState hashF state).hash, 0)]
          steps := 0
          calls := 0
          fired := false } := rfl



/-! ### The N = 2 scenario -/

/-- C5: on start `[[1, 2], [0, 3]]` with goal `[[1, 2], [3, 0]]`, `astar`
succeeds after two pops with the single Action swapping `(1, 0)` and `(1, 1)`,
for every heuristic that scores the goal grid 0 and the other neighbor at
least 1 at step 0 — as all three provided heuristics do for every valid
exponent — and for any `exp` argument. -/
theorem astar_solves_n2_scenario
    (heur : Grid → Grid → Nat → Option Nat → Except PyErr Nat)
    (e : Option Nat) (k : Nat)
    (hgoal : heur [[1, 2], [3, 0]] [[1, 2], [3, 0]] 0 e = Except.ok 0)
    (hoff : heur [[0, 2], [1, 3]] [[1, 2], [3, 0]] 0 e = Except.ok k)
    (hk : 1 ≤ k) :
    (astar gridHash heur [[1, 2], [0, 3]] [[1, 2], [3, 0]] e 2).1 =
      some (Except.ok (true, [Action.mk (1, 0) (1, 1)])) := by
  have hle : entryLe ⟨1, mkState gridHash [[1, 2], [3, 0]], [Action.mk (1, 0) (1, 1)]⟩ ⟨1 + k, mkState gridHash [[0, 2], [1, 3]], [Action.mk (1, 0) (0, 0)]⟩ = true := by
    unfold entryLe
    dsimp only
    rw [if_neg (by omega)]
    simp only [decide_eq_true_eq]
    omega
  have hp1 : processActs gridHash heur (mkState gridHash [[1, 2], [3, 0]]) e (mkState gridHash [[1, 2], [0, 3]]) [] [Action.mk (1, 0) (0, 0), Action.mk (1, 0) (1, 1)] { open_set := [], closed_set := [gridHash [[1, 2], [0, 3]]], past_len := [(gridHash [[1, 2], [0, 3]], 0)], steps := 0, calls := 0, fired := false } = processActs gridHash heur (mkState gridHash [[1, 2], [3, 0]]) e (mkState gridHash [[1, 2], [0, 3]]) [] [Action.mk (1, 0) (1, 1)] { open_set := [⟨1 + k, mkState gridHash [[0, 2], [1, 3]], [Action.mk (1, 0) (0, 0)]⟩], closed_set := [gridHash [[0, 2], [1, 3]], gridHash [[1, 2], [0, 3]]], past_len := [(gridHash [[0, 2], [1, 3]], 1), (gridHash [[1, 2], [0, 3]], 0)], steps := 0, calls := 1, fired := false } := by
    rw [processActs_cons_new gridHash heur (mkState gridHash [[1, 2], [3, 0]]) e (mkState gridHash [[1, 2], [0, 3]]) [] (Action.mk (1, 0) (0, 0)) [Action.mk (1, 0) (1, 1)] { open_set := [], closed_set := [gridHash [[1, 2], [0, 3]]], past_len := [(gridHash [[1, 2], [0, 3]], 0)], steps := 0, calls := 0, fired := false } k rfl hoff]
    rfl
  have hp2 : processActs gridHash heur (mkState gridHash [[1, 2], [3, 0]]) e (mkState gridHash [[1, 2], [0, 3]]) [] [Action.mk (1, 0) (1, 1)] { open_set := [⟨1 + k, mkState gridHash [[0, 2], [1, 3]], [Action.mk (1, 0) (0, 0)]⟩], closed_set := [gridHash [[0, 2], [1, 3]], gridHash [[1, 2], [0, 3]]], past_len := [(gridHash [[0, 2], [1, 3]], 1), (gridHash [[1, 2], [0, 3]], 0)], steps := 0, calls := 1, fired := false } = processActs gridHash heur (mkState gridHash [[1, 2], [3, 0]]) e (mkState gridHash [[1, 2], [0, 3]]) [] [] { open_set := heappush [⟨1 + k, mkState gridHash [[0, 2], [1, 3]], [Action.mk (1, 0) (0, 0)]⟩] ⟨1, mkState gridHash [[1, 2], [3, 0]], [Action.mk (1, 0) (1, 1)]⟩, closed_set := [gridHash [[1, 2], [3, 0]], gridHash [[0, 2], [1, 3]], gridHash [[1, 2], [0, 3]]], past_len := [(gridHash [[1, 2], [3, 0]], 1), (gridHash [[0, 2], [1, 3]], 1), (gridHash [[1, 2], [0, 3]], 0)], steps := 0, calls := 2, fired := false } := by
    rw [processActs_cons_new gridHash heur (mkState gridHash [[1, 2], [3, 0]]) e (mkState gridHash [[1, 2], [0, 3]]) [] (Action.mk (1, 0) (1, 1)) [] { open_set := [⟨1 + k, mkState gridHash [[0, 2], [1, 3]], [Action.mk (1, 0) (0, 0)]⟩], closed_set := [gridHash [[0, 2], [1, 3]], gridHash [[1, 2], [0, 3]]], past_len := [(gridHash [[0, 2], [1, 3]], 1), (gridHash [[1, 2], [0, 3]], 0)], steps := 0, calls := 1, fired := false } 0 rfl hgoal]
    rfl
  have hproc : processActs gridHash heur (mkState gridHash [[1, 2], [3, 0]]) e (mkState gridHash [[1, 2], [0, 3]]) [] [Action.mk (1, 0) (0, 0), Action.mk (1, 0) (1, 1)] { open_set := [], closed_set := [gridHash [[1, 2], [0, 3]]], past_len := [(gridHash [[1, 2], [0, 3]], 0)], steps := 0, calls := 0, fired := false } = ({ open_set := [⟨1, mkState gridHash [[1, 2], [3, 0]], [Action.mk (1, 0) (1, 1)]⟩, ⟨1 + k, mkState gridHash [[0, 2], [1, 3]], [Action.mk (1, 0) (0, 0)]⟩], closed_set := [gridHash [[1, 2], [3, 0]], gridHash [[0, 2], [1, 3]], gridHash [[1, 2], [0, 3]]], past_len := [(gridHash [[1, 2], [3, 0]], 1), (gridHash [[0, 2], [1, 3]], 1), (gridHash [[1, 2], [0, 3]], 0)], steps := 0, calls := 2, fired := false }, none) := by
    rw [hp1, hp2, processActs_nil]
    rw [heappush_single _ _ hle]
  have hA := astarLoop_pop_expand gridHash heur (mkState gridHash [[1, 2], [3, 0]]) e 1 { open_set := [⟨0, mkState gridHash [[1, 2], [0, 3]], []⟩], closed_set := [(mkState gridHash [[1, 2], [0, 3]]).hash], past_len := [((mkState gridHash [[1, 2], [0, 3]]).hash, 0)], steps := 0, calls := 0, fired := false } _ ⟨0, mkState gridHash [[1, 2], [0, 3]], []⟩ [] 1 [Action.mk (1, 0) (0, 0), Action.mk (1, 0) (1, 1)] rfl rfl (by decide) rfl hproc
  have hB := astarLoop_pop_goal gridHash heur (mkState gridHash [[1, 2], [3, 0]]) e 0 { open_set := [⟨1, mkState gridHash [[1, 2], [3, 0]], [Action.mk (1, 0) (1, 1)]⟩, ⟨1 + k, mkState gridHash [[0, 2], [1, 3]], [Action.mk (1, 0) (0, 0)]⟩], closed_set := [gridHash [[1, 2], [3, 0]], gridHash [[0, 2], [1, 3]], gridHash [[1, 2], [0, 3]]], past_len := [(gridHash [[1, 2], [3, 0]], 1), (gridHash [[0, 2], [1, 3]], 1), (gridHash [[1, 2], [0, 3]], 0)], steps := 1, calls := 2, fired := false } ⟨1, mkState gridHash [[1, 2], [3, 0]], [Action.mk (1, 0) (1, 1)]⟩ [⟨1 + k, mkState gridHash [[0, 2], [1, 3]], [Action.mk (1, 0) (0, 0)]⟩] 0 rfl rfl rfl
  rw [astar_eq_loop, hA, hB]

/-- Witness for C5 with the fixed heuristic at its admissible exponent. -/
theorem astar_solves_n2_scenario_witness :
    (astar gridHash fixedHeur [[1, 2], [0, 3]] [[1, 2], [3, 0]] (some 1) 2).1 =
      some (Except.ok (true, [Action.mk (1, 0) (1, 1)])) :=
  astar_solves_n2_scenario fixedHeur (some 1) 2 rfl rfl (by decide)


/-! ### Valid grids and the flat view -/

/-- The grid input contract: an `N` by `N` array holding each value
`0 .. N*N - 1` exactly once. -/
def ValidGrid (N : Nat) (g : Grid) : Prop :=
  g.length = N ∧ (∀ r ∈ g, r.length = N) ∧ g.flatten.Perm (List.range (N * N))

instance (N : Nat) (g : Grid) : Decidable (ValidGrid N g) := by
  unfold ValidGrid; infer_instance

theorem rowFind_eq_none (row : List Nat) (v : Nat) :
    rowFind row v = none ↔ v ∉ row := by
  induction row with
  | nil => simp [rowFind]
  | cons x xs ih =>
    by_cases hx : x = v
    · simp [rowFind, hx]
    · simp [rowFind, hx, ih, Ne.symm hx]

theorem findVal_eq_none (g : Grid) (v : Nat) :
    findVal g v = none ↔ v ∉ g.flatten := by
  induction g with
  | nil => simp [findVal]
  | cons r rs ih =>
    unfold findVal
    cases hr : rowFind r v with
    | some j =>
      have : v ∈ r := by
        have hs := rowFind_spec r v j hr
        have := hs.2
        rw [← this]
        exact getD_mem_of_lt r j 0 hs.1
      simp [this]
    | none =>
      have hvr : v ∉ r := (rowFind_eq_none r v).mp hr
      simp [hvr, ih, Option.map_eq_none']

/-- Reading a cell of a rectangular grid through the flattened list. -/
theorem getCell_eq_join_getD (g : Grid) (N : Nat) (q : Pos)
    (hrows : ∀ r ∈ g, r.length = N) (h1 : q.1 < g.length) (h2 : q.2 < N) :
    g.flatten.getD (q.1 * N + q.2) 0 = getCell g q ∧ q.1 * N + q.2 < g.flatten.length := by
  obtain ⟨i, j⟩ := q
  induction g generalizing i with
  | nil => simp at h1
  | cons r rs ih =>
    have hr : r.length = N := hrows r (List.mem_cons_self r rs)
    cases i with
    | zero =>
      constructor
      · rw [List.flatten_cons, List.getD_append _ _ _ _ (by omega), getCell]
        simp
      · simp only [List.flatten_cons, List.length_append]
        omega
    | succ i2 =>
      have hrec := ih (fun r2 hr2 => hrows r2 (List.mem_cons_of_mem r hr2)) i2
        (by simpa using h1) (by simpa using h2)
      have harith : (i2 + 1) * N + j = r.length + (i2 * N + j) := by
        rw [hr]; ring
      constructor
      · rw [List.flatten_cons, harith, List.getD_append_right _ _ _ _ (by omega)]
        have hsub : r.length + (i2 * N + j) - r.length = i2 * N + j := by omega
        rw [hsub, hrec.1]
        simp [getCell]
      · simp only [List.flatten_cons, List.length_append]
        have hrec2 : i2 * N + j < rs.flatten.length := by simpa using hrec.2
        rw [harith]
        omega

/-- In a valid grid each value below `N * N` sits at exactly one position:
`findVal` finds `q` exactly when the cell at `q` holds `v`. -/
theorem findVal_spec' (g : Grid) (v : Nat) (q : Pos) (h : findVal g v = some q) :
    q.1 < g.length ∧ q.2 < (g.getD q.1 []).length ∧ getCell g q = v := by
  obtain ⟨x, y⟩ := q
  exact findVal_spec g v x y h

theorem findVal_valid_iff (N : Nat) (g : Grid) (v : Nat) (q : Pos)
    (hg : ValidGrid N g) (hv : v < N * N) :
    findVal g v = some q ↔ (q.1 < N ∧ q.2 < N ∧ getCell g q = v) := by
  obtain ⟨hlen, hrows, hperm⟩ := hg
  have hnd : g.flatten.Nodup := hperm.nodup_iff.mpr (List.nodup_range (N * N))
  constructor
  · intro h
    have hs := findVal_spec' g v q h
    have hrowlen : (g.getD q.1 []).length = N :=
      hrows _ (getD_mem_of_lt g q.1 [] hs.1)
    exact ⟨hlen ▸ hs.1, hrowlen ▸ hs.2.1, hs.2.2⟩
  · rintro ⟨hq1, hq2, hcell⟩
    have hmem : v ∈ g.flatten := hperm.mem_iff.mpr (List.mem_range.mpr hv)
    cases hfv : findVal g v with
    | none => exact absurd hmem ((findVal_eq_none g v).mp hfv)
    | some q2 =>
      have hs := findVal_spec' g v q2 hfv
      have hrowlen2 : (g.getD q2.1 []).length = N :=
        hrows _ (getD_mem_of_lt g q2.1 [] hs.1)
      have hflat1 := getCell_eq_join_getD g N q hrows (hlen ▸ hq1) hq2
      have hflat2 := getCell_eq_join_getD g N q2 hrows hs.1 (hrowlen2 ▸ hs.2.1)
      have heq : g.flatten.getD (q2.1 * N + q2.2) 0 = g.flatten.getD (q.1 * N + q.2) 0 := by
        rw [hflat1.1, hflat2.1, hcell, hs.2.2]
      have hidx : q2.1 * N + q2.2 = q.1 * N + q.2 := by
        have h1 := hflat1.2
        have h2 := hflat2.2
        have hgetelem : g.flatten.get ⟨q2.1 * N + q2.2, h2⟩ =
            g.flatten.get ⟨q.1 * N + q.2, h1⟩ := by
          have e1 : g.flatten.getD (q2.1 * N + q2.2) 0 =
              g.flatten.get ⟨q2.1 * N + q2.2, h2⟩ :=
            List.getD_eq_getElem g.flatten 0 h2
          have e2 : g.flatten.getD (q.1 * N + q.2) 0 =
              g.flatten.get ⟨q.1 * N + q.2, h1⟩ :=
            List.getD_eq_getElem g.flatten 0 h1
          rw [← e1, ← e2, heq]
        have hfineq := (List.Nodup.get_inj_iff hnd).mp hgetelem
        exact congrArg Fin.val hfineq
      have hq2' : q2.2 < N := hrowlen2 ▸ hs.2.1
      have hN : 0 < N := by omega
      have e2 : q2.2 = q.2 := by
        have hcon : (q2.1 * N + q2.2) % N = (q.1 * N + q.2) % N := by
          have := congrArg (fun t => t % N) hidx
          simpa using this
        rw [Nat.add_comm (q2.1 * N) q2.2, Nat.add_comm (q.1 * N) q.2,
          Nat.add_mul_mod_self_right, Nat.add_mul_mod_self_right] at hcon
        rw [Nat.mod_eq_of_lt hq2', Nat.mod_eq_of_lt hq2] at hcon
        exact hcon
      rw [e2] at hidx
      have e1 : q2.1 = q.1 :=
        Nat.eq_of_mul_eq_mul_right hN (Nat.add_right_cancel hidx)
      exact congrArg some (Prod.ext e1 e2)


/-! ### Swaps preserve the multiset of values -/

theorem count_set_add (l : List Nat) (i : Nat) (v c : Nat) (h : i < l.length) :
    (l.set i v).count c + (if l.getD i 0 = c then 1 else 0) =
      l.count c + (if v = c then 1 else 0) := by
  induction l generalizing i with
  | nil => simp at h
  | cons x xs ih =>
    cases i with
    | zero =>
      simp only [List.set_cons_zero, List.getD_cons_zero, List.count_cons]
      by_cases hv : v = c <;> by_cases hx : x = c <;> simp [hv, hx] <;> omega
    | succ i2 =>
      have hih := ih i2 (by simpa using h)
      simp only [List.set_cons_succ, List.getD_cons_succ, List.count_cons]
      omega

theorem set_swap_perm (l : List Nat) (i j : Nat) (hi : i < l.length)
    (hj : j < l.length) (hne : i ≠ j) :
    ((l.set i (l.getD j 0)).set j (l.getD i 0)).Perm l := by
  apply (List.perm_iff_count).mpr
  intro c
  have h1 := count_set_add l i (l.getD j 0) c hi
  have h2 := count_set_add (l.set i (l.getD j 0)) j (l.getD i 0) c
    (by rw [List.length_set]; exact hj)
  have hgd : (l.set i (l.getD j 0)).getD j 0 = l.getD j 0 := by
    rw [getD_set_general]
    rw [if_neg]
    rintro ⟨rfl, _⟩
    exact hne rfl
  rw [hgd] at h2
  omega

theorem flatten_setCell (g : Grid) (N : Nat) (q : Pos) (v : Nat)
    (hrows : ∀ r ∈ g, r.length = N) (h1 : q.1 < g.length) (h2 : q.2 < N) :
    (setCell g q v).flatten = g.flatten.set (q.1 * N + q.2) v := by
  obtain ⟨i, j⟩ := q
  induction g generalizing i with
  | nil => simp at h1
  | cons r rs ih =>
    have hr : r.length = N := hrows r (List.mem_cons_self r rs)
    cases i with
    | zero =>
      show ((r :: rs).set 0 (((r :: rs).getD 0 []).set j v)).flatten = _
      simp only [List.getD_cons_zero, List.set_cons_zero, List.flatten_cons]
      rw [List.set_append_left _ _ (by omega)]
      simp
    | succ i2 =>
      show ((r :: rs).set (i2 + 1) (((r :: rs).getD (i2 + 1) []).set j v)).flatten = _
      simp only [List.getD_cons_succ, List.set_cons_succ, List.flatten_cons]
      have hrec := ih (fun r2 hr2 => hrows r2 (List.mem_cons_of_mem r hr2)) i2
        (by simpa using h1) (by simpa using h2)
      have harith : (i2 + 1) * N + j = r.length + (i2 * N + j) := by
        rw [hr]; ring
      rw [harith, List.set_append_right _ _ (by omega)]
      have hsub : r.length + (i2 * N + j) - r.length = i2 * N + j := by omega
      rw [hsub]
      exact congrArg (r ++ ·) hrec

theorem rows_setCell (g : Grid) (N : Nat) (q : Pos) (v : Nat)
    (hrows : ∀ r ∈ g, r.length = N) : ∀ r ∈ setCell g q v, r.length = N := by
  intro r hr
  obtain ⟨i, hi, rfl⟩ := List.mem_iff_getElem.mp hr
  rw [← List.getD_eq_getElem _ [] hi, rowlen_setCell]
  have hi2 : i < g.length := by
    have := List.length_set g q.1 ((g.getD q.1 []).set q.2 v)
    unfold setCell at hi
    omega
  exact hrows _ (getD_mem_of_lt g i [] hi2)

theorem rows_do_action (g : Grid) (N : Nat) (a : Action)
    (hrows : ∀ r ∈ g, r.length = N) : ∀ r ∈ do_action g a, r.length = N := by
  intro r hr
  obtain ⟨i, hi, rfl⟩ := List.mem_iff_getElem.mp hr
  rw [← List.getD_eq_getElem _ [] hi, rowlen_do_action]
  have hi2 : i < g.length := by rw [← length_do_action g a]; exact hi
  exact hrows _ (getD_mem_of_lt g i [] hi2)

theorem flat_index_inj (N i1 j1 i2 j2 : Nat) (h1 : j1 < N) (h2 : j2 < N)
    (h : i1 * N + j1 = i2 * N + j2) : i1 = i2 ∧ j1 = j2 := by
  have hN : 0 < N := by omega
  have hj : j1 = j2 := by
    have hcon : (i1 * N + j1) % N = (i2 * N + j2) % N := by rw [h]
    rw [Nat.add_comm (i1 * N) j1, Nat.add_comm (i2 * N) j2,
      Nat.add_mul_mod_self_right, Nat.add_mul_mod_self_right] at hcon
    rw [Nat.mod_eq_of_lt h1, Nat.mod_eq_of_lt h2] at hcon
    exact hcon
  rw [hj] at h
  exact ⟨Nat.eq_of_mul_eq_mul_right hN (Nat.add_right_cancel h), hj⟩

/-- The flat view of `do_action`: the two flattened positions are swapped. -/
theorem flatten_do_action (g : Grid) (N : Nat) (a : Action)
    (hrows : ∀ r ∈ g, r.length = N)
    (hb1 : a.pos1.1 < g.length) (hc1 : a.pos1.2 < N)
    (hb2 : a.pos2.1 < g.length) (hc2 : a.pos2.2 < N) :
    (do_action g a).flatten =
      (g.flatten.set (a.pos1.1 * N + a.pos1.2)
        (g.flatten.getD (a.pos2.1 * N + a.pos2.2) 0)).set (a.pos2.1 * N + a.pos2.2)
        (g.flatten.getD (a.pos1.1 * N + a.pos1.2) 0) := by
  rw [do_action_eq]
  rw [flatten_setCell _ N _ _ (rows_setCell g N _ _ hrows)
    (by rw [length_setCell]; exact hb2) hc2]
  rw [flatten_setCell g N _ _ hrows hb1 hc1]
  rw [(getCell_eq_join_getD g N a.pos2 hrows hb2 hc2).1]
  rw [(getCell_eq_join_getD g N a.pos1 hrows hb1 hc1).1]

/-- Applying an in-bounds action to a valid grid yields a valid grid. -/
theorem validGrid_do_action (N : Nat) (g : Grid) (a : Action) (hg : ValidGrid N g)
    (hc1 : a.pos1.2 < N) (hc2 : a.pos2.2 < N)
    (hb1 : a.pos1.1 < g.length) (hb2 : a.pos2.1 < g.length)
    (hne : a.pos1 ≠ a.pos2) :
    ValidGrid N (do_action g a) := by
  obtain ⟨hlen, hrows, hperm⟩ := hg
  refine ⟨by rw [length_do_action, hlen], rows_do_action g N a hrows, ?_⟩
  rw [flatten_do_action g N a hrows hb1 hc1 hb2 hc2]
  have hidx : a.pos1.1 * N + a.pos1.2 ≠ a.pos2.1 * N + a.pos2.2 := by
    intro hcon
    obtain ⟨e1, e2⟩ := flat_index_inj N _ _ _ _ hc1 hc2 hcon
    exact hne (Prod.ext e1 e2)
  have hi1 := (getCell_eq_join_getD g N a.pos1 hrows hb1 hc1).2
  have hi2 := (getCell_eq_join_getD g N a.pos2 hrows hb2 hc2).2
  exact (set_swap_perm g.flatten _ _ hi1 hi2 hidx).trans hperm


/-! ### The Manhattan sum and action traces -/

/-- The value of one Manhattan term when both positions exist (the total
function behind `manhattan_distance`; junk 0 when a tile is missing). -/
def mdValD (s g : Grid) (n p : Nat) : Nat :=
  match findVal s n, findVal g n with
  | some p1, some p2 => (natDist p1.1 p2.1 + natDist p1.2 p2.2) ^ p
  | _, _ => 0

/-- The fixed heuristic base value: the sum of per-tile Manhattan terms. -/
def mdSum (s g : Grid) (p : Nat) : Nat :=
  ((List.range (s.length ^ 2 - 1)).map (fun i => mdValD s g (i + 1) p)).sum

theorem mdValD_eq (s g : Grid) (n p : Nat) (p1 p2 : Pos)
    (h1 : findVal s n = some p1) (h2 : findVal g n = some p2) :
    mdValD s g n p = (natDist p1.1 p2.1 + natDist p1.2 p2.2) ^ p := by
  unfold mdValD
  rw [h1, h2]

theorem mapM_md_eq (s g : Grid) (p : Nat) (l : List Nat)
    (h : ∀ i ∈ l, (findVal s (i + 1)).isSome ∧ (findVal g (i + 1)).isSome) :
    l.mapM (fun i => manhattan_distance s g (i + 1) p) =
      Except.ok (l.map (fun i => mdValD s g (i + 1) p)) := by
  induction l with
  | nil => rfl
  | cons i l2 ih =>
    rw [List.mapM_cons]
    have hi := h i (List.mem_cons_self i l2)
    obtain ⟨q1, hq1⟩ := Option.isSome_iff_exists.mp hi.1
    obtain ⟨q2, hq2⟩ := Option.isSome_iff_exists.mp hi.2
    rw [manhattan_distance_ok s g (i + 1) p q1 q2 hq1 hq2]
    rw [ih (fun i2 hi2 => h i2 (List.mem_cons_of_mem i hi2))]
    rw [List.map_cons, mdValD_eq s g (i + 1) p q1 q2 hq1 hq2]
    rfl

theorem validGrid_findVal_isSome (N : Nat) (s : Grid) (v : Nat)
    (hs : ValidGrid N s) (hv : v < N * N) : (findVal s v).isSome := by
  cases hfv : findVal s v with
  | some q => rfl
  | none =>
    have hmem : v ∈ s.flatten := hs.2.2.mem_iff.mpr (List.mem_range.mpr hv)
    exact absurd hmem ((findVal_eq_none s v).mp hfv)

/-- On valid grids the fixed heuristic computes `mdSum ^ exp`. -/
theorem fixed_heuristic_valid_ok (N : Nat) (s g : Grid) (st : Option Nat)
    (e0 p : Nat) (hs : ValidGrid N s) (hg : ValidGrid N g) :
    fixed_heuristic s g st (some e0) p = Except.ok (mdSum s g p ^ e0) := by
  unfold fixed_heuristic mdSum
  dsimp only
  rw [mapM_md_eq s g p _ ?pres]
  case pres =>
    intro i hi
    have hiN : i + 1 < N * N := by
      have := List.mem_range.mp hi
      have hlen : s.length = N := hs.1
      rw [hlen, pow_two] at this
      omega
    exact ⟨validGrid_findVal_isSome N s (i + 1) hs hiN,
      validGrid_findVal_isSome N g (i + 1) hg hiN⟩
  rfl

/-- A valid move trace: each listed Action is drawn from `available_actions`
of the grid it is applied to, and `do_action` steps the grid. -/
inductive TracesTo : Grid → List Action → Grid → Prop where
  | nil (g : Grid) : TracesTo g [] g
  | cons {s : Grid} {acts : List Action} {a : Action} {p : List Action} {g : Grid} :
      available_actions s = Except.ok acts → a ∈ acts →
      TracesTo (do_action s a) p g → TracesTo s (a :: p) g

theorem TracesTo.snoc {s g : Grid} {p : List Action} {acts : List Action} {a : Action}
    (h : TracesTo s p g) (hacts : available_actions g = Except.ok acts)
    (ha : a ∈ acts) : TracesTo s (p ++ [a]) (do_action g a) := by
  induction h with
  | nil g2 => exact TracesTo.cons hacts ha (TracesTo.nil _)
  | cons hav hmem _h2 ih => exact TracesTo.cons hav hmem (ih hacts)

/-- Everything one needs to know about a member of `available_actions` on a
valid grid. -/
theorem action_facts (N : Nat) (g : Grid) (acts : List Action) (a : Action)
    (hg : ValidGrid N g) (hacts : available_actions g = Except.ok acts)
    (ha : a ∈ acts) :
    a.pos1.1 < N ∧ a.pos1.2 < N ∧ a.pos2.1 < N ∧ a.pos2.2 < N ∧
    findVal g 0 = some a.pos1 ∧ getCell g a.pos1 = 0 ∧ a.pos1 ≠ a.pos2 ∧
    natDist a.pos1.1 a.pos2.1 + natDist a.pos1.2 a.pos2.2 = 1 ∧
    getCell g a.pos2 ≠ 0 := by
  cases hfv : findVal g 0 with
  | none =>
    rw [available_actions, hfv] at hacts
    exact absurd hacts (by simp)
  | some bp =>
    obtain ⟨x, y⟩ := bp
    have hspec := findVal_spec g 0 x y hfv
    have hxN : x < N := hg.1 ▸ hspec.1
    have hyN : y < N := by
      have hrl : (g.getD x []).length = N := hg.2.1 _ (getD_mem_of_lt g x [] hspec.1)
      have := hspec.2.1
      omega
    have hNN : 0 < N * N := Nat.mul_pos (by omega) (by omega)
    obtain ⟨acts2, hok, hmem⟩ := available_actions_pos1_is_blank g x y hfv
    rw [hacts] at hok
    injection hok with hok
    subst hok
    have hfacts := hmem a ha
    have hacts2 := hacts
    unfold available_actions at hacts2
    rw [hfv] at hacts2
    dsimp only at hacts2
    rw [hg.1] at hacts2
    injection hacts2 with hacts2
    have hb2 : a.pos2.1 < N ∧ a.pos2.2 < N := by
      rw [← hacts2] at ha
      simp only [List.mem_append, mem_ite_singleton] at ha
      rcases ha with ((⟨hc, rfl⟩ | ⟨hc, rfl⟩) | ⟨hc, rfl⟩) | ⟨hc, rfl⟩ <;>
        refine ⟨?_, ?_⟩ <;> dsimp only <;> omega
    refine ⟨?_, ?_, hb2.1, hb2.2, ?_, ?_, ?_, ?_, ?_⟩
    · rw [hfacts.1]; exact hxN
    · rw [hfacts.1]; exact hyN
    · rw [hfacts.1]
    · rw [hfacts.1]; exact hspec.2.2
    · intro hcon
      exact hfacts.2.1 hcon.symm
    · rw [hfacts.1]
      have hd := hfacts.2.2
      simp only [natDist] at hd ⊢
      omega
    · intro hcell
      have hvalid0 : findVal g 0 = some a.pos2 :=
        (findVal_valid_iff N g 0 a.pos2 hg hNN).mpr ⟨hb2.1, hb2.2, hcell⟩
      have h3 : a.pos2 = (x, y) := by
        injection hvalid0.symm.trans hfv
      exact hfacts.2.1 (h3.trans hfacts.1.symm)


/-! ### One move changes the Manhattan sum by at most one -/

theorem sum_map_le_single (l : List Nat) (f f2 : Nat → Nat) (j : Nat)
    (hj : j ∈ l) (hnd : l.Nodup) (hothers : ∀ i ∈ l, i ≠ j → f i = f2 i)
    (hjle : f j ≤ f2 j + 1) : (l.map f).sum ≤ (l.map f2).sum + 1 := by
  have hperm := List.perm_cons_erase hj
  rw [(hperm.map f).sum_eq, (hperm.map f2).sum_eq]
  simp only [List.map_cons, List.sum_cons]
  have hcongr : (l.erase j).map f = (l.erase j).map f2 :=
    List.map_congr_left (fun i hi => hothers i (List.mem_of_mem_erase hi)
      ((hnd.mem_erase_iff.mp hi).1))
  rw [hcongr]
  omega

theorem inBounds_of_valid (N : Nat) (g : Grid) (p : Pos) (hg : ValidGrid N g)
    (h1 : p.1 < N) (h2 : p.2 < N) : inBounds g p := by
  refine ⟨hg.1.symm ▸ h1, ?_⟩
  have hr : (g.getD p.1 []).length = N :=
    hg.2.1 _ (getD_mem_of_lt g p.1 [] (hg.1.symm ▸ h1))
  omega

theorem getCell_lt_of_valid (N : Nat) (g : Grid) (p : Pos) (hg : ValidGrid N g)
    (h1 : p.1 < N) (h2 : p.2 < N) : getCell g p < N * N := by
  have hb := inBounds_of_valid N g p hg h1 h2
  have hflat := getCell_eq_join_getD g N p hg.2.1 hb.1 h2
  have hmem : getCell g p ∈ g.flatten := by
    rw [← hflat.1]
    exact getD_mem_of_lt _ _ 0 hflat.2
  exact List.mem_range.mp (hg.2.2.mem_iff.mp hmem)

/-- After a legal move the moved tile sits at the old blank position. -/
theorem findVal_do_action_moved (N : Nat) (g : Grid) (acts : List Action)
    (a : Action) (hg : ValidGrid N g)
    (hacts : available_actions g = Except.ok acts) (ha : a ∈ acts) :
    findVal (do_action g a) (getCell g a.pos2) = some a.pos1 := by
  obtain ⟨h11, h12, h21, h22, _hfv, hcell1, hne, _hdist, _hv0⟩ :=
    action_facts N g acts a hg hacts ha
  have hb1 := inBounds_of_valid N g a.pos1 hg h11 h12
  have hb2 := inBounds_of_valid N g a.pos2 hg h21 h22
  have hvalid2 := validGrid_do_action N g a hg h12 h22
    (hg.1.symm ▸ h11) (hg.1.symm ▸ h21) hne
  have hvN := getCell_lt_of_valid N g a.pos2 hg h21 h22
  apply (findVal_valid_iff N (do_action g a) (getCell g a.pos2) a.pos1 hvalid2 hvN).mpr
  refine ⟨h11, h12, ?_⟩
  rw [getCell_do_action g a a.pos1 hb1 hb2]
  rw [if_neg hne, if_pos rfl]

/-- Tiles other than the moved one keep their position. -/
theorem findVal_do_action_other (N : Nat) (g : Grid) (acts : List Action)
    (a : Action) (n : Nat) (hg : ValidGrid N g)
    (hacts : available_actions g = Except.ok acts) (ha : a ∈ acts)
    (hn0 : n ≠ 0) (hnv : n ≠ getCell g a.pos2) (hnN : n < N * N) :
    findVal (do_action g a) n = findVal g n := by
  obtain ⟨h11, h12, h21, h22, _hfv, hcell1, hne, _hdist, _hv0⟩ :=
    action_facts N g acts a hg hacts ha
  have hb1 := inBounds_of_valid N g a.pos1 hg h11 h12
  have hb2 := inBounds_of_valid N g a.pos2 hg h21 h22
  have hvalid2 := validGrid_do_action N g a hg h12 h22
    (hg.1.symm ▸ h11) (hg.1.symm ▸ h21) hne
  obtain ⟨q, hq⟩ := Option.isSome_iff_exists.mp (validGrid_findVal_isSome N g n hg hnN)
  have hqs := (findVal_valid_iff N g n q hg hnN).mp hq
  have hq1 : q ≠ a.pos1 := by
    intro hcon
    rw [hcon, hcell1] at hqs
    exact hn0 hqs.2.2.symm
  have hq2 : q ≠ a.pos2 := by
    intro hcon
    rw [hcon] at hqs
    exact hnv hqs.2.2.symm
  rw [hq]
  apply (findVal_valid_iff N (do_action g a) n q hvalid2 hnN).mpr
  refine ⟨hqs.1, hqs.2.1, ?_⟩
  rw [getCell_do_action g a q hb1 hb2, if_neg hq2, if_neg hq1]
  exact hqs.2.2

/-- One legal move lowers the Manhattan sum by at most one. -/
theorem mdSum_step (N : Nat) (g goal : Grid) (acts : List Action) (a : Action)
    (hg : ValidGrid N g) (hgoal : ValidGrid N goal)
    (hacts : available_actions g = Except.ok acts) (ha : a ∈ acts) :
    mdSum g goal 1 ≤ mdSum (do_action g a) goal 1 + 1 := by
  obtain ⟨h11, h12, h21, h22, _hfv, hcell1, hne, hdist, hv0⟩ :=
    action_facts N g acts a hg hacts ha
  have hvN := getCell_lt_of_valid N g a.pos2 hg h21 h22
  have hv1 : 1 ≤ getCell g a.pos2 := by omega
  have hN2 : N * N = N ^ 2 := (pow_two N).symm
  unfold mdSum
  rw [length_do_action]
  apply sum_map_le_single _ _ _ (getCell g a.pos2 - 1)
  · rw [List.mem_range, hg.1, ← hN2]
    omega
  · exact List.nodup_range _
  · intro i hi hnei
    have hiN : i + 1 < N * N := by
      rw [List.mem_range, hg.1, ← hN2] at hi
      omega
    unfold mdValD
    rw [findVal_do_action_other N g acts a (i + 1) hg hacts ha (by omega)
      (by omega) hiN]
  · have hvv : getCell g a.pos2 - 1 + 1 = getCell g a.pos2 := by omega
    rw [hvv]
    have hpos_g : findVal g (getCell g a.pos2) = some a.pos2 :=
      (findVal_valid_iff N g _ a.pos2 hg hvN).mpr ⟨h21, h22, rfl⟩
    have hpos_g2 := findVal_do_action_moved N g acts a hg hacts ha
    obtain ⟨w, hw⟩ := Option.isSome_iff_exists.mp
      (validGrid_findVal_isSome N goal _ hgoal hvN)
    rw [mdValD_eq g goal _ 1 a.pos2 w hpos_g hw,
      mdValD_eq (do_action g a) goal _ 1 a.pos1 w hpos_g2 hw]
    simp only [natDist, pow_one] at hdist ⊢
    omega

/-- Along any legal trace the Manhattan sum drops by at most the number of
moves. -/
theorem mdSum_le_trace (N : Nat) (goal : Grid) (hgoal : ValidGrid N goal) :
    ∀ (s g2 : Grid) (p : List Action), TracesTo s p g2 → ValidGrid N s →
      mdSum s goal 1 ≤ p.length + mdSum g2 goal 1 := by
  intro s g2 p ht
  induction ht with
  | nil g => intro _; simp
  | cons hav hmem _h2 ih =>
    intro hs
    rename_i s2 acts2 a2 p2 g3
    obtain ⟨h11, h12, h21, h22, _hfv, hcell1, hne, _hdist, _hv0⟩ :=
      action_facts N s2 acts2 a2 hs hav hmem
    have hvalid2 := validGrid_do_action N s2 a2 hs h12 h22
      (hs.1.symm ▸ h11) (hs.1.symm ▸ h21) hne
    have hstep := mdSum_step N s2 goal acts2 a2 hs hgoal hav hmem
    have hrec := ih hvalid2
    simp only [List.length_cons]
    omega

theorem mdSum_self_zero (N : Nat) (goal : Grid) (hgoal : ValidGrid N goal) :
    mdSum goal goal 1 = 0 := by
  unfold mdSum
  apply List.sum_eq_zero
  intro x hx
  obtain ⟨i, hi, rfl⟩ := List.mem_map.mp hx
  have hiN : i + 1 < N * N := by
    rw [List.mem_range, hgoal.1] at hi
    have := (pow_two N).symm
    omega
  obtain ⟨w, hw⟩ := Option.isSome_iff_exists.mp
    (validGrid_findVal_isSome N goal _ hgoal hiN)
  rw [mdValD_eq goal goal _ 1 w w hw hw]
  simp [natDist]

/-- Admissibility core: on valid grids the exp-1 Manhattan sum never exceeds
the length of any legal trace to the goal. -/
theorem mdSum_le_path_length (N : Nat) (s goal : Grid) (p : List Action)
    (hs : ValidGrid N s) (hgoal : ValidGrid N goal) (ht : TracesTo s p goal) :
    mdSum s goal 1 ≤ p.length := by
  have := mdSum_le_trace N goal hgoal s goal p ht hs
  rw [mdSum_self_zero N goal hgoal] at this
  omega


/-! ### Soundness: a successful search returns a legal trace to the goal -/

theorem mem_heappush (l : List Entry) (e x : Entry) :
    x ∈ heappush l e ↔ x = e ∨ x ∈ l := by
  induction l with
  | nil => simp [heappush]
  | cons y ys ih =>
    unfold heappush
    by_cases hle : entryLe e y = true
    · rw [if_pos hle]
      simp [List.mem_cons]
    · rw [if_neg hle]
      simp only [List.mem_cons, ih]
      tauto

/-- Every frontier entry carries a consistent hash and a legal trace from the
start grid to its grid. -/
def EntryInv (hashF : Grid → Int) (start : Grid) (σ : SearchState) : Prop :=
  ∀ en ∈ σ.open_set, en.state.hash = hashF en.state.content ∧
    TracesTo start en.path en.state.content

theorem relaxPush_entryInv (hashF : Grid → Int)
    (heur : Grid → Grid → Nat → Option Nat → Except PyErr Nat)
    (goalS : State) (e : Option Nat) (current : State) (curr_path : List Action)
    (a : Action) (σ σ2 : SearchState) (res : Option PyErr)
    (start : Grid) (ACTS : List Action)
    (hacts : available_actions current.content = Except.ok ACTS) (haA : a ∈ ACTS)
    (htr : TracesTo start curr_path current.content)
    (hinv : EntryInv hashF start σ)
    (hp : relaxPush hashF heur goalS e current curr_path a σ = (σ2, res)) :
    EntryInv hashF start σ2 := by
  unfold relaxPush at hp
  dsimp only at hp
  split at hp
  · injection hp with h1 h2
    subst h1
    exact fun en hen => hinv en hen
  · injection hp with h1 h2
    subst h1
    intro en hen
    rcases (mem_heappush _ _ en).mp hen with rfl | hold
    · exact ⟨rfl, htr.snoc hacts haA⟩
    · exact hinv en hold

theorem processActs_entryInv (hashF : Grid → Int)
    (heur : Grid → Grid → Nat → Option Nat → Except PyErr Nat)
    (goalS : State) (e : Option Nat) (current : State) (curr_path : List Action)
    (start : Grid) (ACTS : List Action)
    (hacts : available_actions current.content = Except.ok ACTS)
    (htr : TracesTo start curr_path current.content) :
    ∀ (acts : List Action) (σ σ2 : SearchState) (res : Option PyErr),
    (∀ a ∈ acts, a ∈ ACTS) →
    EntryInv hashF start σ →
    processActs hashF heur goalS e current curr_path acts σ = (σ2, res) →
    EntryInv hashF start σ2 := by
  intro acts
  induction acts with
  | nil =>
    intro σ σ2 res _ hinv hp
    rw [processActs_nil] at hp
    injection hp with h1 h2
    subst h1
    exact hinv
  | cons a rest ih =>
    intro σ σ2 res hsub hinv hp
    have haA : a ∈ ACTS := hsub a (List.mem_cons_self a rest)
    have hsub2 : ∀ b ∈ rest, b ∈ ACTS := fun b hb => hsub b (List.mem_cons_of_mem a hb)
    unfold processActs at hp
    dsimp only at hp
    split at hp
    · -- neighbor in closed set: KeyError cases, fire, or skip
      split at hp
      · injection hp with h1 h2
        subst h1
        exact fun en hen => hinv en hen
      · split at hp
        · injection hp with h1 h2
          subst h1
          exact fun en hen => hinv en hen
        · split at hp
          · -- fire branch: relaxPush then recurse
            split at hp
            · rename_i σ3 err3 hrel
              injection hp with h1 h2
              exact h1 ▸ relaxPush_entryInv hashF heur goalS e current curr_path a
                { σ with calls := σ.calls + 1, fired := true } σ3 (some err3)
                start ACTS hacts haA htr (fun en hen => hinv en hen) hrel
            · rename_i σ3 hrel
              exact ih σ3 σ2 res hsub2
                (relaxPush_entryInv hashF heur goalS e current curr_path a
                  { σ with calls := σ.calls + 1, fired := true } σ3 none
                  start ACTS hacts haA htr (fun en hen => hinv en hen) hrel) hp
          · -- skip branch
            exact ih { σ with calls := σ.calls + 1 } σ2 res hsub2
              (fun en hen => hinv en hen) hp
    · -- neighbor not in closed set: relaxPush then recurse
      split at hp
      · rename_i σ3 err3 hrel
        injection hp with h1 h2
        exact h1 ▸ relaxPush_entryInv hashF heur goalS e current curr_path a
          { σ with calls := σ.calls + 1 } σ3 (some err3)
          start ACTS hacts haA htr (fun en hen => hinv en hen) hrel
      · rename_i σ3 hrel
        exact ih σ3 σ2 res hsub2
          (relaxPush_entryInv hashF heur goalS e current curr_path a
            { σ with calls := σ.calls + 1 } σ3 none
            start ACTS hacts haA htr (fun en hen => hinv en hen) hrel) hp

theorem astarLoop_sound (hashF : Grid → Int)
    (heur : Grid → Grid → Nat → Option Nat → Except PyErr Nat)
    (goalS : State) (e : Option Nat) (start : Grid) :
    ∀ (fuel : Nat) (σ σf : SearchState) (p : List Action),
    EntryInv hashF start σ →
    astarLoop hashF heur goalS e fuel σ = (some (Except.ok (true, p)), σf) →
    ∃ gfin, TracesTo start p gfin ∧ hashF gfin = goalS.hash := by
  intro fuel
  induction fuel with
  | zero =>
    intro σ σf p _ h
    unfold astarLoop at h
    injection h with h1 h2
    exact absurd h1 (by simp)
  | succ fuel ih =>
    intro σ σf p hinv h
    unfold astarLoop at h
    split at h
    · injection h with h1 h2
      injection h1 with h1
      injection h1 with h1
      injection h1 with h1
      exact absurd h1 (by simp)
    · rename_i en rest hopen
      generalize (if σ.steps % 10000 = 0 then
        fixed_heuristic en.state.content goalS.content none (some 1) 1
        else Except.ok 0) = lr at h
      dsimp only at h
      split at h
      · injection h with h1 h2
        injection h1 with h1
        injection h1
      · split at h
        · rename_i hgoal
          injection h with h1 h2
          injection h1 with h1
          injection h1 with h1
          injection h1 with hb hpath
          have hcur := hinv en (by rw [hopen]; exact List.mem_cons_self en rest)
          exact ⟨en.state.content, hpath ▸ hcur.2, hcur.1 ▸ hgoal⟩
        · split at h
          · injection h with h1 h2
            injection h1 with h1
            injection h1
          · rename_i acts hacts
            split at h
            · injection h with h1 h2
              injection h1 with h1
              injection h1
            · rename_i σ3 hproc
              have hcur := hinv en (by rw [hopen]; exact List.mem_cons_self en rest)
              have hinv3 : EntryInv hashF start σ3 :=
                processActs_entryInv hashF heur goalS e en.state en.path start acts
                  hacts hcur.2 acts _ σ3 none (fun a ha => ha)
                  (fun en2 hen2 => hinv en2 (by
                    rw [hopen]
                    exact List.mem_cons_of_mem en hen2)) hproc
              exact ih { σ3 with steps := σ3.steps + 1 } σf p
                (fun en2 hen2 => hinv3 en2 hen2) h

/-- C2: with `exp = 1` (and `p = 1`) the fixed heuristic is admissible — its
value on any valid state/goal pair never exceeds the length of any legal move
sequence from the state to the goal — and consequently any successful `astar`
path (for an injective state hash) is at least as long as the heuristic value
at the start state. -/
theorem fixed_heuristic_admissible :
    (∀ (N : Nat) (s goal : Grid) (p : List Action) (st : Option Nat) (m : Nat),
      ValidGrid N s → ValidGrid N goal → TracesTo s p goal →
      fixed_heuristic s goal st (some 1) 1 = Except.ok m → m ≤ p.length) ∧
    (∀ (hashF : Grid → Int), Function.Injective hashF →
      ∀ (heur : Grid → Grid → Nat → Option Nat → Except PyErr Nat)
        (N : Nat) (start goal : Grid) (e : Option Nat) (fuel : Nat)
        (p : List Action) (σf : SearchState) (st : Option Nat) (m : Nat),
      ValidGrid N start → ValidGrid N goal →
      astar hashF heur start goal e fuel = (some (Except.ok (true, p)), σf) →
      fixed_heuristic start goal st (some 1) 1 = Except.ok m → m ≤ p.length) := by
  have part1 : ∀ (N : Nat) (s goal : Grid) (p : List Action) (st : Option Nat)
      (m : Nat), ValidGrid N s → ValidGrid N goal → TracesTo s p goal →
      fixed_heuristic s goal st (some 1) 1 = Except.ok m → m ≤ p.length := by
    intro N s goal p st m hs hg ht hfix
    rw [fixed_heuristic_valid_ok N s goal st 1 1 hs hg] at hfix
    injection hfix with hfix
    rw [← hfix, pow_one]
    exact mdSum_le_path_length N s goal p hs hg ht
  refine ⟨part1, ?_⟩
  intro hashF hinj heur N start goal e fuel p σf st m hs hg hrun hfix
  have hsound := astarLoop_sound hashF heur (mkState hashF goal) e start fuel _ σf p
    (fun en hen => by
      rcases (mem_heappush [] ⟨0, mkState hashF start, []⟩ en).mp hen with rfl | hcon
      · exact ⟨rfl, TracesTo.nil start⟩
      · simp at hcon) hrun
  obtain ⟨gfin, htr, hhash⟩ := hsound
  have hgg : gfin = goal := hinj hhash
  subst hgg
  exact part1 N start gfin p st m hs hg htr hfix

/-- Witness for C2 on a concrete one-move instance. -/
theorem fixed_heuristic_admissible_witness :
    (1 : Nat) ≤ ([Action.mk (1, 0) (1, 1)] : List Action).length :=
  fixed_heuristic_admissible.1 2 [[1, 2], [0, 3]] [[1, 2], [3, 0]]
    [Action.mk (1, 0) (1, 1)] none 1 (by decide) (by decide)
    (TracesTo.cons rfl (by decide) (TracesTo.nil [[1, 2], [3, 0]])) rfl


/-! ### Dict, closed-set and heap order lemmas -/

theorem contains_iff_mem (l : List Int) (k : Int) : l.contains k = true ↔ k ∈ l := by
  induction l with
  | nil => simp
  | cons x xs ih =>
    simp only [List.contains_cons, Bool.or_eq_true, beq_iff_eq, ih, List.mem_cons]

theorem contains_insertClosed_self (l : List Int) (k : Int) :
    (insertClosed l k).contains k = true := by
  unfold insertClosed
  split
  · assumption
  · simp [List.contains_cons]

theorem contains_insertClosed_mono (l : List Int) (k h : Int)
    (hc : l.contains h = true) : (insertClosed l k).contains h = true := by
  unfold insertClosed
  split
  · exact hc
  · exact (contains_iff_mem _ _).mpr (List.mem_cons_of_mem k ((contains_iff_mem _ _).mp hc))

theorem contains_insertClosed_elim (l : List Int) (k h : Int)
    (hc : (insertClosed l k).contains h = true) : h = k ∨ l.contains h = true := by
  unfold insertClosed at hc
  split at hc
  · exact Or.inr hc
  · have hm := (contains_iff_mem (k :: l) h).mp hc
    cases List.mem_cons.mp hm with
    | inl h1 => exact Or.inl h1
    | inr h2 => exact Or.inr ((contains_iff_mem l h).mpr h2)

theorem lookup_dictSet_self (d : List (Int × Nat)) (k : Int) (v : Nat) :
    (dictSet d k v).lookup k = some v := by
  simp [dictSet, List.lookup]

theorem lookup_dictSet_other (d : List (Int × Nat)) (k k2 : Int) (v : Nat)
    (h : k2 ≠ k) : (dictSet d k v).lookup k2 = d.lookup k2 := by
  have hb : (k2 == k) = false := beq_eq_false_iff_ne.mpr h
  simp [dictSet, List.lookup, hb]

/-- The stored path-length bound for a hash (0 when absent; reads are guarded
by key-presence invariants so the default is never observed). -/
def pastD (d : List (Int × Nat)) (k : Int) : Nat := (d.lookup k).getD 0

theorem dictGet_eq_pastD (d : List (Int × Nat)) (k : Int)
    (h : (d.lookup k).isSome) : dictGet d k = Except.ok (pastD d k) := by
  unfold dictGet pastD
  cases hl : d.lookup k with
  | some v => rfl
  | none => rw [hl] at h; exact absurd h (by simp)

theorem isSome_lookup_dictSet (d : List (Int × Nat)) (k k2 : Int) (v : Nat)
    (h : (d.lookup k2).isSome) : ((dictSet d k v).lookup k2).isSome := by
  by_cases hk : k2 = k
  · subst hk; rw [lookup_dictSet_self]; rfl
  · rw [lookup_dictSet_other d k k2 v hk]; exact h

theorem pastD_dictSet_self (d : List (Int × Nat)) (k : Int) (v : Nat) :
    pastD (dictSet d k v) k = v := by
  unfold pastD
  rw [lookup_dictSet_self]
  rfl

theorem pastD_dictSet_other (d : List (Int × Nat)) (k k2 : Int) (v : Nat)
    (h : k2 ≠ k) : pastD (dictSet d k v) k2 = pastD d k2 := by
  unfold pastD
  rw [lookup_dictSet_other d k k2 v h]

theorem entryLe_cost_le (a b : Entry) (h : entryLe a b = true) : a.cost ≤ b.cost := by
  unfold entryLe at h
  split at h
  · omega
  · simp only [decide_eq_true_eq] at h
    omega

theorem entryLe_false_cost (a b : Entry) (h : entryLe a b = false) :
    b.cost ≤ a.cost := by
  unfold entryLe at h
  split at h
  · omega
  · rename_i hne
    simp only [decide_eq_false_iff_not, not_lt] at h
    exact h

/-- The heap's sortedness we rely on: nondecreasing costs. -/
def CostSorted (l : List Entry) : Prop :=
  l.Pairwise (fun x y => x.cost ≤ y.cost)

theorem costSorted_heappush (l : List Entry) (e : Entry) (h : CostSorted l) :
    CostSorted (heappush l e) := by
  induction l with
  | nil => exact List.pairwise_singleton _ e
  | cons x xs ih =>
    unfold heappush
    rcases List.pairwise_cons.mp h with ⟨hx, hxs⟩
    by_cases hle : entryLe e x = true
    · rw [if_pos hle]
      refine List.pairwise_cons.mpr ⟨?_, h⟩
      intro z hz
      rcases List.mem_cons.mp hz with rfl | hz2
      · exact entryLe_cost_le e z hle
      · exact le_trans (entryLe_cost_le e x hle) (hx z hz2)
    · rw [if_neg hle]
      refine List.pairwise_cons.mpr ⟨?_, ih hxs⟩
      intro z hz
      rcases (mem_heappush xs e z).mp hz with rfl | hz2
      · exact entryLe_false_cost z x (Bool.eq_false_iff.mpr hle)
      · exact hx z hz2

/-! ### Applying a path of actions; trace splitting and deduplication -/

/-- Sequential application of a path, as the spec's `apply()` from the start. -/
def applyActs (s : Grid) (p : List Action) : Grid := p.foldl do_action s

theorem TracesTo_applyActs {s g : Grid} {p : List Action} (h : TracesTo s p g) :
    applyActs s p = g := by
  induction h with
  | nil g0 => rfl
  | cons hav hmem h2 ih => exact ih

theorem TracesTo_append_combine {s mid g : Grid} {p q : List Action}
    (h1 : TracesTo s p mid) : TracesTo mid q g → TracesTo s (p ++ q) g := by
  induction h1 with
  | nil g0 => exact fun h2 => h2
  | cons hav hmem _ ih => exact fun h2 => TracesTo.cons hav hmem (ih h2)

/-- The grid after the first `i` moves of the path. -/
def gridSeq (s : Grid) (p : List Action) (i : Nat) : Grid := applyActs s (p.take i)

theorem TracesTo_gridSeq {s g : Grid} {p : List Action} (h : TracesTo s p g)
    (i : Nat) :
    TracesTo s (p.take i) (gridSeq s p i) ∧
      TracesTo (gridSeq s p i) (p.drop i) g := by
  have hsplit : p.take i ++ p.drop i = p := List.take_append_drop i p
  rw [← hsplit] at h
  obtain ⟨mid, h1, h2⟩ : ∃ mid, TracesTo s (p.take i) mid ∧
      TracesTo mid (p.drop i) g := by
    clear hsplit
    generalize p.take i = t at h ⊢
    induction t generalizing s with
    | nil => exact ⟨s, TracesTo.nil s, h⟩
    | cons a t2 ih =>
      cases h with
      | cons hav hmem h2 =>
        obtain ⟨mid, h3, h4⟩ := ih h2
        exact ⟨mid, TracesTo.cons hav hmem h3, h4⟩
  have hmid : mid = gridSeq s p i := (TracesTo_applyActs h1).symm
  subst hmid
  exact ⟨h1, h2⟩

theorem gridSeq_zero (s : Grid) (p : List Action) : gridSeq s p 0 = s := rfl

theorem gridSeq_full {s g : Grid} {p : List Action} (h : TracesTo s p g) :
    gridSeq s p p.length = g := by
  unfold gridSeq
  rw [List.take_length]
  exact TracesTo_applyActs h

theorem TracesTo_step {s g : Grid} {p : List Action} (h : TracesTo s p g)
    (i : Nat) (hi : i < p.length) :
    ∃ acts, available_actions (gridSeq s p i) = Except.ok acts ∧
      p.get ⟨i, hi⟩ ∈ acts ∧
      do_action (gridSeq s p i) (p.get ⟨i, hi⟩) = gridSeq s p (i + 1) := by
  obtain ⟨h1, h2⟩ := TracesTo_gridSeq h i
  have hdrop : p.drop i = p.get ⟨i, hi⟩ :: p.drop (i + 1) :=
    List.drop_eq_getElem_cons hi
  rw [hdrop] at h2
  cases h2 with
  | cons hav hmem h3 =>
    refine ⟨_, hav, hmem, ?_⟩
    have htake : p.take (i + 1) = p.take i ++ [p.get ⟨i, hi⟩] := by
      rw [List.take_succ]
      congr 1
      rw [List.getElem?_eq_getElem hi]
      rfl
    unfold gridSeq applyActs
    rw [htake, List.foldl_append]
    rfl

/-- The grid sequence visited by a path, as a list (length `|p| + 1`). -/
def gridList (s : Grid) (p : List Action) : List Grid :=
  (List.range (p.length + 1)).map (gridSeq s p)

theorem exists_nodup_trace (s g : Grid) :
    ∀ (n : Nat) (p : List Action), p.length ≤ n → TracesTo s p g →
      ∃ q, TracesTo s q g ∧ (gridList s q).Nodup := by
  intro n
  induction n with
  | zero =>
    intro p hlen hp
    have hnil : p = [] := List.length_eq_zero.mp (Nat.le_zero.mp hlen)
    subst hnil
    exact ⟨[], hp, List.nodup_singleton _⟩
  | succ n ih =>
    intro p hlen hp
    by_cases hnd : (gridList s p).Nodup
    · exact ⟨p, hp, hnd⟩
    · have hninj : ¬ Function.Injective (gridList s p).get := by
        intro hinj
        exact hnd (List.nodup_iff_injective_get.mpr hinj)
      simp only [Function.Injective, not_forall] at hninj
      obtain ⟨a, b, heq, hne⟩ := hninj
      have hget : ∀ (c : Fin (gridList s p).length),
          (gridList s p).get c = gridSeq s p c.val := by
        intro c
        have hc := c.isLt
        simp only [gridList, List.length_map, List.length_range] at hc
        simp [gridList, List.get_eq_getElem]
      have hlength : (gridList s p).length = p.length + 1 := by
        simp [gridList]
      obtain ⟨i, j, hij, hjlen, hgeq⟩ : ∃ i j, i < j ∧ j ≤ p.length ∧
          gridSeq s p i = gridSeq s p j := by
        rcases Nat.lt_or_ge a.val b.val with hab | hab
        · refine ⟨a.val, b.val, hab, ?_, ?_⟩
          · have := b.isLt; omega
          · rw [← hget a, ← hget b, heq]
        · have hba : b.val < a.val := by
            rcases Nat.lt_or_ge b.val a.val with h2 | h2
            · exact h2
            · exact absurd (Fin.ext (Nat.le_antisymm h2 hab)) hne
          refine ⟨b.val, a.val, hba, ?_, ?_⟩
          · have := a.isLt; omega
          · rw [← hget a, ← hget b, heq]
      have h1 := (TracesTo_gridSeq hp i).1
      have h2 := (TracesTo_gridSeq hp j).2
      rw [← hgeq] at h2
      have hq : TracesTo s (p.take i ++ p.drop j) g :=
        TracesTo_append_combine h1 h2
      have hqlen : (p.take i ++ p.drop j).length ≤ n := by
        rw [List.length_append, List.length_take, List.length_drop]
        omega
      exact ih _ hqlen hq


/-! ### Enumerating the valid grids; assorted validity lemmas -/

theorem chunksGo_flatten (N : Nat) (hN : 0 < N) :
    ∀ (g : Grid) (fuel : Nat), (∀ r ∈ g, r.length = N) → g.length ≤ fuel →
      chunksGo N fuel g.flatten = g := by
  intro g
  induction g with
  | nil =>
    intro fuel _ _
    cases fuel <;> rfl
  | cons r rs ih =>
    intro fuel hrows hfuel
    have hr : r.length = N := hrows r (List.mem_cons_self r rs)
    cases fuel with
    | zero => simp at hfuel
    | succ f =>
      cases r with
      | nil => rw [← hr] at hN; simp at hN
      | cons x xr =>
        rw [List.flatten_cons]
        have hxr : xr.length = N - 1 := by
          simp only [List.length_cons] at hr
          omega
        have htake : List.take (N - 1) (xr ++ rs.flatten) = xr := by
          rw [← hxr]
          exact List.take_left xr rs.flatten
        have hdrop : List.drop (N - 1) (xr ++ rs.flatten) = rs.flatten := by
          rw [← hxr]
          exact List.drop_left xr rs.flatten
        have hstep : chunksGo N (f + 1) (x :: (xr ++ rs.flatten)) =
            (x :: List.take (N - 1) (xr ++ rs.flatten)) ::
              chunksGo N f (List.drop (N - 1) (xr ++ rs.flatten)) := rfl
        rw [List.cons_append, hstep, htake, hdrop]
        have hrec := ih f (fun r2 h2 => hrows r2 (List.mem_cons_of_mem _ h2))
          (by simp only [List.length_cons] at hfuel; omega)
        rw [hrec]

theorem length_le_flatten (N : Nat) (hN : 0 < N) :
    ∀ (g : Grid), (∀ r ∈ g, r.length = N) → g.length ≤ g.flatten.length := by
  intro g
  induction g with
  | nil => simp
  | cons r rs ih =>
    intro hrows
    rw [List.flatten_cons, List.length_cons, List.length_append]
    have hr : r.length = N := hrows r (List.mem_cons_self r rs)
    have := ih (fun r2 h2 => hrows r2 (List.mem_cons_of_mem _ h2))
    omega

theorem chunks_flatten (N : Nat) (g : Grid) (hN : 0 < N)
    (hrows : ∀ r ∈ g, r.length = N) : chunks N g.flatten = g := by
  unfold chunks
  exact chunksGo_flatten N hN g g.flatten.length hrows
    (length_le_flatten N hN g hrows)

/-- Every grid over the alphabet `0 .. N*N-1` (each exactly once), as a finite
list: the chunked permutations of `range (N*N)`. -/
def allGrids (N : Nat) : List Grid :=
  (List.permutations (List.range (N * N))).map (chunks N)

theorem mem_allGrids (N : Nat) (g : Grid) (hg : ValidGrid N g) (hN : 0 < N) :
    g ∈ allGrids N :=
  List.mem_map.mpr ⟨g.flatten, List.mem_permutations.mpr hg.2.2,
    chunks_flatten N g hN hg.2.1⟩

theorem validGrid_zero (g : Grid) (hg : ValidGrid 0 g) : g = [] :=
  List.length_eq_zero.mp hg.1

theorem validGrid_ne_pos (N : Nat) (g1 g2 : Grid) (h1 : ValidGrid N g1)
    (h2 : ValidGrid N g2) (hne : g1 ≠ g2) : 0 < N := by
  rcases Nat.eq_zero_or_pos N with rfl | hp
  · exact absurd ((validGrid_zero g1 h1).trans (validGrid_zero g2 h2).symm) hne
  · exact hp

theorem available_actions_ok_of_valid (N : Nat) (g : Grid) (hg : ValidGrid N g)
    (hN : 0 < N) : ∃ acts, available_actions g = Except.ok acts := by
  have hs := validGrid_findVal_isSome N g 0 hg (Nat.mul_pos hN hN)
  obtain ⟨q, hq⟩ := Option.isSome_iff_exists.mp hs
  obtain ⟨x, y⟩ := q
  unfold available_actions
  rw [hq]
  exact ⟨_, rfl⟩

theorem validGrid_do_action_of_mem (N : Nat) (g : Grid) (acts : List Action)
    (a : Action) (hg : ValidGrid N g)
    (hacts : available_actions g = Except.ok acts) (ha : a ∈ acts) :
    ValidGrid N (do_action g a) := by
  obtain ⟨h11, h12, h21, h22, _, _, hne, _, _⟩ := action_facts N g acts a hg hacts ha
  exact validGrid_do_action N g a hg h12 h22 (hg.1.symm ▸ h11) (hg.1.symm ▸ h21) hne

theorem do_action_ne_of_mem (N : Nat) (g : Grid) (acts : List Action)
    (a : Action) (hg : ValidGrid N g)
    (hacts : available_actions g = Except.ok acts) (ha : a ∈ acts) :
    do_action g a ≠ g := by
  obtain ⟨h11, h12, h21, h22, _, hcell1, hne, _, hv0⟩ :=
    action_facts N g acts a hg hacts ha
  intro hcon
  have hb1 := inBounds_of_valid N g a.pos1 hg h11 h12
  have hb2 := inBounds_of_valid N g a.pos2 hg h21 h22
  have hcell := getCell_do_action g a a.pos1 hb1 hb2
  rw [hcon, if_neg hne, if_pos rfl] at hcell
  rw [hcell1] at hcell
  exact hv0 hcell.symm

/-! ### Counting and summation lemmas for the termination measure -/

theorem countP_le_of_imp {α : Type} (l : List α) (p q : α → Bool)
    (h : ∀ x ∈ l, q x = true → p x = true) : l.countP q ≤ l.countP p := by
  induction l with
  | nil => simp
  | cons a l2 ih =>
    rw [List.countP_cons, List.countP_cons]
    have ht := ih (fun x hx hqx => h x (List.mem_cons_of_mem a hx) hqx)
    have hif : (if q a = true then 1 else 0) ≤ (if p a = true then 1 else 0) := by
      cases hqa : q a with
      | false => simp
      | true =>
        have hpa := h a (List.mem_cons_self a l2) hqa
        rw [hpa]
    exact Nat.add_le_add ht hif

theorem countP_lt_of_flip {α : Type} (l : List α) (p q : α → Bool)
    (h : ∀ x ∈ l, q x = true → p x = true) (x : α) (hx : x ∈ l)
    (hpx : p x = true) (hqx : q x = false) : l.countP q < l.countP p := by
  induction l with
  | nil => simp at hx
  | cons a l2 ih =>
    rw [List.countP_cons, List.countP_cons]
    have hle := countP_le_of_imp l2 p q (fun y hy hqy => h y (List.mem_cons_of_mem a hy) hqy)
    rcases List.mem_cons.mp hx with rfl | hx2
    · have hAq : (if q x = true then 1 else 0) = 0 := by rw [hqx]; simp
      have hAp : (if p x = true then 1 else 0) = 1 := by rw [hpx]; rfl
      rw [hAq, hAp]
      omega
    · have hlt := ih (fun y hy hqy => h y (List.mem_cons_of_mem a hy) hqy) hx2
      have hif : (if q a = true then 1 else 0) ≤ (if p a = true then 1 else 0) := by
        cases hqa : q a with
        | false => simp
        | true =>
          have hpa := h a (List.mem_cons_self a l2) hqa
          rw [hpa]
      exact add_lt_add_of_lt_of_le hlt hif

theorem sum_map_le_of_le {α : Type} (l : List α) (f f2 : α → Nat)
    (h : ∀ x ∈ l, f2 x ≤ f x) : (l.map f2).sum ≤ (l.map f).sum := by
  induction l with
  | nil => simp
  | cons a l2 ih =>
    simp only [List.map_cons, List.sum_cons]
    have h1 := h a (List.mem_cons_self a l2)
    have h2 := ih (fun y hy => h y (List.mem_cons_of_mem a hy))
    omega

theorem sum_map_lt_of_flip {α : Type} (l : List α) (f f2 : α → Nat)
    (h : ∀ x ∈ l, f2 x ≤ f x) (x : α) (hx : x ∈ l) (hlt : f2 x < f x) :
    (l.map f2).sum < (l.map f).sum := by
  induction l with
  | nil => simp at hx
  | cons a l2 ih =>
    simp only [List.map_cons, List.sum_cons]
    have hle := sum_map_le_of_le l2 f f2 (fun y hy => h y (List.mem_cons_of_mem a hy))
    rcases List.mem_cons.mp hx with rfl | hx2
    · omega
    · have h1 := h a (List.mem_cons_self a l2)
      have h2 := ih (fun y hy => h y (List.mem_cons_of_mem a hy)) hx2
      omega

/-- Strong induction over a lexicographic triple of naturals. -/
theorem lex3_ind (P : Nat → Nat → Nat → Prop)
    (h : ∀ a b c, (∀ x y z, (x < a ∨ (x = a ∧ (y < b ∨ (y = b ∧ z < c)))) →
      P x y z) → P a b c) : ∀ a b c, P a b c := by
  intro a
  induction a using Nat.strong_induction_on with
  | _ a iha =>
    intro b
    induction b using Nat.strong_induction_on with
    | _ b ihb =>
      intro c
      induction c using Nat.strong_induction_on with
      | _ c ihc =>
        apply h
        rintro x y z (hx | ⟨rfl, hy | ⟨rfl, hz⟩⟩)
        · exact iha x hx y z
        · exact ihb y hy z
        · exact ihc z hz


/-! ### The termination measure -/

theorem insertClosed_of_contains (l : List Int) (k : Int)
    (h : l.contains k = true) : insertClosed l k = l := by
  unfold insertClosed
  rw [if_pos h]

theorem contains_insertClosed_ne (l : List Int) (k h : Int) (hne : k ≠ h) :
    (insertClosed l h).contains k = l.contains k := by
  cases hc : l.contains k with
  | true => exact contains_insertClosed_mono l h k hc
  | false =>
    cases hc2 : (insertClosed l h).contains k with
    | false => rfl
    | true =>
      rcases contains_insertClosed_elim l h k hc2 with rfl | hc3
      · exact absurd rfl hne
      · rw [hc3] at hc
        exact hc

/-- Grids (among all `N*N` boards) whose hash is not yet in the closed set. -/
def unclosedC (hashF : Grid → Int) (N : Nat) (cl : List Int) : Nat :=
  (allGrids N).countP (fun g => ! cl.contains (hashF g))

/-- The sum of stored path lengths over closed boards. -/
def closedS (hashF : Grid → Int) (N : Nat) (cl : List Int)
    (d : List (Int × Nat)) : Nat :=
  ((allGrids N).map (fun g => if cl.contains (hashF g) = true
    then pastD d (hashF g) else 0)).sum

theorem unclosedC_insert_le (hashF : Grid → Int) (N : Nat) (cl : List Int)
    (h : Int) : unclosedC hashF N (insertClosed cl h) ≤ unclosedC hashF N cl := by
  apply countP_le_of_imp
  intro g _ hq
  rw [Bool.not_eq_true'] at hq ⊢
  cases hc : cl.contains (hashF g) with
  | false => rfl
  | true =>
    have hm := contains_insertClosed_mono cl h (hashF g) hc
    rw [hq] at hm
    exact absurd hm Bool.false_ne_true

theorem unclosedC_insert_lt (hashF : Grid → Int) (N : Nat) (cl : List Int)
    (h : Int) (g0 : Grid) (hg0 : g0 ∈ allGrids N) (hh : hashF g0 = h)
    (hnc : cl.contains h = false) :
    unclosedC hashF N (insertClosed cl h) < unclosedC hashF N cl := by
  apply countP_lt_of_flip _ _ _ ?imp g0 hg0
  · rw [Bool.not_eq_true', hh]
    exact hnc
  · rw [Bool.not_eq_false', hh]
    exact contains_insertClosed_self cl h
  case imp =>
    intro g _ hq
    rw [Bool.not_eq_true'] at hq ⊢
    cases hc : cl.contains (hashF g) with
    | false => rfl
    | true =>
      have hm := contains_insertClosed_mono cl h (hashF g) hc
      rw [hq] at hm
      exact absurd hm Bool.false_ne_true

theorem closedS_set_lt (hashF : Grid → Int) (N : Nat) (cl : List Int)
    (d : List (Int × Nat)) (h : Int) (v : Nat) (hc : cl.contains h = true)
    (g0 : Grid) (hg0 : g0 ∈ allGrids N) (hh : hashF g0 = h)
    (hlt : v < pastD d h) :
    closedS hashF N cl (dictSet d h v) < closedS hashF N cl d := by
  apply sum_map_lt_of_flip _ _ _ ?le g0 hg0
  · rw [hh, if_pos hc, if_pos hc, pastD_dictSet_self]
    exact hlt
  case le =>
    intro g _
    by_cases hgh : hashF g = h
    · rw [hgh, if_pos hc, if_pos hc, pastD_dictSet_self]
      exact le_of_lt hlt
    · rw [pastD_dictSet_other d h (hashF g) v hgh]

theorem closedS_eq_of_untouched (hashF : Grid → Int) (N : Nat)
    (cl cl2 : List Int) (d d2 : List (Int × Nat))
    (hcl : ∀ g ∈ allGrids N, cl2.contains (hashF g) = cl.contains (hashF g))
    (hd : ∀ g ∈ allGrids N, cl.contains (hashF g) = true →
      pastD d2 (hashF g) = pastD d (hashF g)) :
    closedS hashF N cl2 d2 = closedS hashF N cl d := by
  unfold closedS
  apply congrArg
  apply List.map_congr_left
  intro g hg
  rw [hcl g hg]
  cases hc : cl.contains (hashF g) with
  | false => simp
  | true => rw [if_pos rfl, if_pos rfl, hd g hg hc]

/-- Lexicographic non-worsening of the measure, remembering which component
moved: either strictly fewer unclosed boards, or the same unclosed set with a
strictly smaller stored-length sum, or both unchanged and the very same heap. -/
def MLE (hashF : Grid → Int) (N : Nat) (σbefore σafter : SearchState) : Prop :=
  unclosedC hashF N σafter.closed_set < unclosedC hashF N σbefore.closed_set ∨
  (unclosedC hashF N σafter.closed_set = unclosedC hashF N σbefore.closed_set ∧
    closedS hashF N σafter.closed_set σafter.past_len <
      closedS hashF N σbefore.closed_set σbefore.past_len) ∨
  (unclosedC hashF N σafter.closed_set = unclosedC hashF N σbefore.closed_set ∧
    closedS hashF N σafter.closed_set σafter.past_len =
      closedS hashF N σbefore.closed_set σbefore.past_len ∧
    σafter.open_set = σbefore.open_set)

theorem MLE_refl (hashF : Grid → Int) (N : Nat) (σ : SearchState) :
    MLE hashF N σ σ := Or.inr (Or.inr ⟨rfl, rfl, rfl⟩)

theorem MLE_trans (hashF : Grid → Int) (N : Nat) (a b c : SearchState)
    (h1 : MLE hashF N a b) (h2 : MLE hashF N b c) : MLE hashF N a c := by
  rcases h1 with h1 | ⟨h1e, h1s⟩ | ⟨h1e, h1s, h1o⟩ <;>
    rcases h2 with h2 | ⟨h2e, h2s⟩ | ⟨h2e, h2s, h2o⟩
  · exact Or.inl (lt_trans h2 h1)
  · exact Or.inl (h2e ▸ h1)
  · exact Or.inl (h2e ▸ h1)
  · exact Or.inl (h1e ▸ h2)
  · exact Or.inr (Or.inl ⟨h2e.trans h1e, lt_trans h2s h1s⟩)
  · exact Or.inr (Or.inl ⟨h2e.trans h1e, h2s ▸ h1s⟩)
  · exact Or.inl (h1e ▸ h2)
  · exact Or.inr (Or.inl ⟨h2e.trans h1e, h1s ▸ h2s⟩)
  · exact Or.inr (Or.inr ⟨h2e.trans h1e, h2s.trans h1s, h2o.trans h1o⟩)

/-! ### The conventional goal grid is valid -/

theorem chunksGo_shape (N : Nat) (hN : 0 < N) :
    ∀ (k fuel : Nat) (l : List Nat), l.length = N * k → k ≤ fuel →
      (∀ r ∈ chunksGo N fuel l, r.length = N) ∧
        (chunksGo N fuel l).length = k ∧ (chunksGo N fuel l).flatten = l := by
  intro k
  induction k with
  | zero =>
    intro fuel l hl _
    have : l = [] := List.length_eq_zero.mp (by omega)
    subst this
    have hnil : chunksGo N fuel [] = [] := by cases fuel <;> rfl
    rw [hnil]
    exact ⟨by intro r hr; simp at hr, rfl, rfl⟩
  | succ k ih =>
    intro fuel l hl hk
    have hlpos : 0 < l.length := by
      rw [hl]
      exact Nat.mul_pos hN (Nat.succ_pos k)
    cases fuel with
    | zero => omega
    | succ f =>
      cases l with
      | nil => simp at hlpos
      | cons x xs =>
        have hxs : xs.length = N - 1 + N * k := by
          simp only [List.length_cons] at hl
          have hm : N * (k + 1) = N * k + N := by ring
          omega
        have hstep : chunksGo N (f + 1) (x :: xs) =
            (x :: List.take (N - 1) xs) :: chunksGo N f (List.drop (N - 1) xs) := rfl
        have hdl : (List.drop (N - 1) xs).length = N * k := by
          rw [List.length_drop]
          omega
        have hrec := ih f (List.drop (N - 1) xs) hdl (by omega)
        have htl : (List.take (N - 1) xs).length = N - 1 := by
          rw [List.length_take]
          omega
        refine ⟨?_, ?_, ?_⟩
        · intro r hr
          rw [hstep] at hr
          rcases List.mem_cons.mp hr with rfl | hr2
          · rw [List.length_cons, htl]
            omega
          · exact hrec.1 r hr2
        · rw [hstep, List.length_cons, hrec.2.1]
        · rw [hstep, List.flatten_cons, hrec.2.2]
          rw [List.cons_append, List.take_append_drop]

theorem validGrid_set_goal (N : Nat) (hN : 0 < N) : ValidGrid N (set_goal N) := by
  have hflen : (flatGoal N).length = N * N := by
    simp only [flatGoal, List.length_append, List.length_map, List.length_range,
      List.length_cons, List.length_nil]
    have : 0 < N * N := Nat.mul_pos hN hN
    omega
  have hshape := chunksGo_shape N hN N (flatGoal N).length (flatGoal N)
    (by rw [hflen]) (by rw [hflen]; exact Nat.le_mul_of_pos_left N hN)
  have hperm : (flatGoal N).Perm (List.range (N * N)) := by
    have hNN : N * N = (N * N - 1) + 1 := by
      have : 0 < N * N := Nat.mul_pos hN hN
      omega
    have hr : List.range (N * N) = 0 :: List.map Nat.succ (List.range (N * N - 1)) := by
      conv_lhs => rw [hNN]
      exact List.range_succ_eq_map (N * N - 1)
    rw [hr]
    unfold flatGoal
    rw [show List.map Nat.succ (List.range (N * N - 1)) =
      List.map (fun x => x + 1) (List.range (N * N - 1)) from
      List.map_congr_left (fun x _ => rfl)]
    exact List.perm_append_singleton 0 _
  exact ⟨hshape.2.1, hshape.1, hshape.2.2.symm ▸ hperm⟩


/-! ### Search-state invariants -/

/-- Structural invariants: the heap is cost-sorted; every entry holds a valid
grid, a consistent hash, the cost the push computed (or the initial `0`), is
already closed, and its stored length is at most its path length; closed
hashes have `past_len` entries. -/
structure BaseInv (hashF : Grid → Int) (hv : Grid → Nat) (N : Nat)
    (σ : SearchState) : Prop where
  sorted : CostSorted σ.open_set
  entries : ∀ en ∈ σ.open_set, ValidGrid N en.state.content ∧
    en.state.hash = hashF en.state.content ∧
    (en.cost = en.path.length + hv en.state.content ∨
      (en.cost = 0 ∧ en.path = [])) ∧
    σ.closed_set.contains en.state.hash = true ∧
    pastD σ.past_len en.state.hash ≤ en.path.length
  keys : ∀ h, σ.closed_set.contains h = true → (σ.past_len.lookup h).isSome

/-- Stale heap entries are covered: a fresher entry of the same board is also
queued, or the whole neighborhood is closed with relaxed stored lengths. -/
def StaleInv (hashF : Grid → Int) (σ : SearchState) : Prop :=
  ∀ en ∈ σ.open_set, pastD σ.past_len en.state.hash < en.path.length →
    (∃ en2 ∈ σ.open_set, en2.state.hash = en.state.hash ∧
      en2.path.length = pastD σ.past_len en.state.hash) ∨
    (∀ acts2 a2, available_actions en.state.content = Except.ok acts2 →
      a2 ∈ acts2 →
      σ.closed_set.contains (hashF (do_action en.state.content a2)) = true ∧
      pastD σ.past_len (hashF (do_action en.state.content a2)) ≤
        pastD σ.past_len en.state.hash + 1)

/-- `StaleInv` with entries of one distinguished hash (the board being
expanded, whose cap this very expansion establishes) exempted. -/
def StaleInvX (hashF : Grid → Int) (h0 : Int) (σ : SearchState) : Prop :=
  ∀ en ∈ σ.open_set, en.state.hash ≠ h0 →
    pastD σ.past_len en.state.hash < en.path.length →
    (∃ en2 ∈ σ.open_set, en2.state.hash = en.state.hash ∧
      en2.path.length = pastD σ.past_len en.state.hash) ∨
    (∀ acts2 a2, available_actions en.state.content = Except.ok acts2 →
      a2 ∈ acts2 →
      σ.closed_set.contains (hashF (do_action en.state.content a2)) = true ∧
      pastD σ.past_len (hashF (do_action en.state.content a2)) ≤
        pastD σ.past_len en.state.hash + 1)

/-- One full neighbor loop from a fresh pop: no errors, all invariants are
preserved, old entries survive, the closed set only grows, newly closed boards
have queued entries, every processed neighbor ends closed, and the measure
does not grow (tracking which component moved). -/
theorem processActs_master (hashF : Grid → Int) (hinj : Function.Injective hashF)
    (heur : Grid → Grid → Nat → Option Nat → Except PyErr Nat)
    (hv : Grid → Nat) (N : Nat) (hN : 0 < N) (goalS : State) (e : Option Nat)
    (hheur : ∀ g st, ValidGrid N g → heur g goalS.content st e = Except.ok (hv g))
    (current : State) (curr_path : List Action) (ACTS : List Action)
    (hcv : ValidGrid N current.content)
    (hch : current.hash = hashF current.content)
    (hacts : available_actions current.content = Except.ok ACTS) :
    ∀ (acts : List Action) (σ : SearchState),
      (∀ a ∈ acts, a ∈ ACTS) →
      BaseInv hashF hv N σ → StaleInvX hashF current.hash σ →
      σ.closed_set.contains current.hash = true →
      pastD σ.past_len current.hash = curr_path.length →
      ∃ σ2, processActs hashF heur goalS e current curr_path acts σ = (σ2, none) ∧
        BaseInv hashF hv N σ2 ∧ StaleInvX hashF current.hash σ2 ∧
        σ2.closed_set.contains current.hash = true ∧
        pastD σ2.past_len current.hash = curr_path.length ∧
        (∀ en ∈ σ.open_set, en ∈ σ2.open_set) ∧
        (∀ h2, σ.closed_set.contains h2 = true →
          σ2.closed_set.contains h2 = true) ∧
        (∀ h2, σ.closed_set.contains h2 = false →
          σ2.closed_set.contains h2 = true →
          ∃ en2 ∈ σ2.open_set, en2.state.hash = h2) ∧
        (∀ a ∈ acts, σ2.closed_set.contains
          (hashF (do_action current.content a)) = true) ∧
        (∀ h2, pastD σ2.past_len h2 = pastD σ.past_len h2 ∨
          pastD σ2.past_len h2 = curr_path.length + 1) ∧
        (∀ a ∈ acts, pastD σ2.past_len
          (hashF (do_action current.content a)) ≤ curr_path.length + 1) ∧
        MLE hashF N σ σ2 := by
  intro acts
  induction acts with
  | nil =>
    intro σ hsub hB hS hcc hpc
    refine ⟨σ, processActs_nil hashF heur goalS e current curr_path σ,
      hB, hS, hcc, hpc, fun en h => h, fun h2 h => h,
      fun h2 hf ht => absurd (hf ▸ ht) Bool.false_ne_true,
      fun a ha => absurd ha (List.not_mem_nil a),
      fun h2 => Or.inl rfl,
      fun a ha => absurd ha (List.not_mem_nil a),
      MLE_refl hashF N σ⟩
  | cons a rest ih =>
    intro σ hsub hB hS hcc hpc
    have haA : a ∈ ACTS := hsub a (List.mem_cons_self a rest)
    have hsub2 : ∀ b ∈ rest, b ∈ ACTS := fun b hb => hsub b (List.mem_cons_of_mem a hb)
    have hnbv : ValidGrid N (do_action current.content a) :=
      validGrid_do_action_of_mem N current.content ACTS a hcv hacts haA
    have hnbne : do_action current.content a ≠ current.content :=
      do_action_ne_of_mem N current.content ACTS a hcv hacts haA
    have hnbh : hashF (do_action current.content a) ≠ current.hash := by
      rw [hch]
      exact fun hcon => hnbne (hinj hcon)
    have hnbmem : do_action current.content a ∈ allGrids N :=
      mem_allGrids N (do_action current.content a) hnbv hN
    cases hcl : σ.closed_set.contains (hashF (do_action current.content a)) with
    | false =>
      -- fresh neighbor: pushed and closed
      rw [processActs_cons_new hashF heur goalS e current curr_path a rest σ
        (hv (do_action current.content a)) hcl
        (hheur (do_action current.content a) σ.steps hnbv)]
      -- the updated state
      have hlen2 : (curr_path ++ [a]).length = curr_path.length + 1 := by
        rw [List.length_append]
        rfl
      -- no old entry carries the (previously unclosed) neighbor hash
      have hnoold : ∀ en ∈ σ.open_set,
          en.state.hash ≠ hashF (do_action current.content a) := by
        intro en hen hcon
        have hmem := (hB.entries en hen).2.2.2.1
        rw [hcon, hcl] at hmem
        exact absurd hmem Bool.false_ne_true
      have hB2 : BaseInv hashF hv N
          { σ with
            calls := σ.calls + 1
            past_len := dictSet σ.past_len (hashF (do_action current.content a))
              (curr_path.length + 1)
            open_set := heappush σ.open_set
              ⟨curr_path.length + 1 + hv (do_action current.content a),
                mkState hashF (do_action current.content a), curr_path ++ [a]⟩
            closed_set := insertClosed σ.closed_set
              (hashF (do_action current.content a)) } := by
        refine ⟨costSorted_heappush _ _ hB.sorted, ?_, ?_⟩
        · intro en hen
          dsimp only [mkState] at hen ⊢
          rcases (mem_heappush _ _ en).mp hen with rfl | hold
          · refine ⟨hnbv, rfl, Or.inl (by dsimp only; rw [hlen2]), ?_, ?_⟩
            · exact contains_insertClosed_self _ _
            · dsimp only
              rw [pastD_dictSet_self, hlen2]
          · obtain ⟨hval, hhash, hcost, hclm, hple⟩ := hB.entries en hold
            refine ⟨hval, hhash, hcost, contains_insertClosed_mono _ _ _ hclm, ?_⟩
            rw [pastD_dictSet_other _ _ _ _ (hnoold en hold)]
            exact hple
        · intro h2 hc2
          dsimp only at hc2 ⊢
          rcases contains_insertClosed_elim _ _ _ hc2 with rfl | hc3
          · rw [lookup_dictSet_self]
            rfl
          · exact isSome_lookup_dictSet _ _ _ _ (hB.keys h2 hc3)
      have hS2 : StaleInvX hashF current.hash
          { σ with
            calls := σ.calls + 1
            past_len := dictSet σ.past_len (hashF (do_action current.content a))
              (curr_path.length + 1)
            open_set := heappush σ.open_set
              ⟨curr_path.length + 1 + hv (do_action current.content a),
                mkState hashF (do_action current.content a), curr_path ++ [a]⟩
            closed_set := insertClosed σ.closed_set
              (hashF (do_action current.content a)) } := by
        intro en hen hne hstale
        dsimp only [mkState] at hen hne hstale ⊢
        rcases (mem_heappush _ _ en).mp hen with rfl | hold
        · dsimp only at hstale
          rw [pastD_dictSet_self, hlen2] at hstale
          exact absurd hstale (lt_irrefl _)
        · rw [pastD_dictSet_other _ _ _ _ (hnoold en hold)] at hstale
          rcases hS en hold hne hstale with ⟨en2, hen2, hh2, hl2⟩ | hcap
          · refine Or.inl ⟨en2, (mem_heappush _ _ en2).mpr (Or.inr hen2), hh2, ?_⟩
            rw [pastD_dictSet_other _ _ _ _ (hnoold en hold)]
            exact hl2
          · refine Or.inr ?_
            intro acts2 a2 hav2 hm2
            obtain ⟨hct, hpt⟩ := hcap acts2 a2 hav2 hm2
            have htne : hashF (do_action en.state.content a2) ≠
                hashF (do_action current.content a) := by
              intro hcon
              rw [hcon, hcl] at hct
              exact absurd hct Bool.false_ne_true
            refine ⟨contains_insertClosed_mono _ _ _ hct, ?_⟩
            rw [pastD_dictSet_other _ _ _ _ htne,
              pastD_dictSet_other _ _ _ _ (hnoold en hold)]
            exact hpt
      obtain ⟨σ2, hp2, hB3, hS3, hcc2, hpc2, hsub3, hmono2, hnew2, hcl2, hW2, hpb2,
          hmle2⟩ :=
        ih _ hsub2 hB2 hS2
          (contains_insertClosed_mono _ _ _ hcc)
          (by dsimp only; rw [pastD_dictSet_other _ _ _ _ (Ne.symm hnbh)]; exact hpc)
      refine ⟨σ2, hp2, hB3, hS3, hcc2, hpc2, ?_, ?_, ?_, ?_, ?_, ?_, ?_⟩
      · intro en hen
        exact hsub3 en ((mem_heappush _ _ en).mpr (Or.inr hen))
      · intro h2 hc2
        exact hmono2 h2 (contains_insertClosed_mono _ _ _ hc2)
      · intro h2 hf ht
        cases hmid : (insertClosed σ.closed_set
            (hashF (do_action current.content a))).contains h2 with
        | true =>
          rcases contains_insertClosed_elim _ _ _ hmid with rfl | hc3
          · refine ⟨⟨curr_path.length + 1 + hv (do_action current.content a),
              mkState hashF (do_action current.content a), curr_path ++ [a]⟩,
              hsub3 _ ((mem_heappush _ _ _).mpr (Or.inl rfl)), rfl⟩
          · rw [hc3] at hf
            exact absurd hf (by simp)
        | false => exact hnew2 h2 hmid ht
      · intro b hb
        rcases List.mem_cons.mp hb with rfl | hb2
        · exact hmono2 _ (contains_insertClosed_self _ _)
        · exact hcl2 b hb2
      · intro h2
        rcases hW2 h2 with h | h
        · by_cases hk : h2 = hashF (do_action current.content a)
          · right
            rw [h]
            dsimp only
            rw [hk, pastD_dictSet_self]
          · left
            rw [h]
            dsimp only
            rw [pastD_dictSet_other _ _ _ _ hk]
        · right
          exact h
      · intro b hb
        rcases List.mem_cons.mp hb with rfl | hb2
        · rcases hW2 (hashF (do_action current.content b)) with h | h
          · rw [h]
            dsimp only
            rw [pastD_dictSet_self]
          · rw [h]
        · exact hpb2 b hb2
      · refine MLE_trans hashF N _ _ _ (Or.inl ?_) hmle2
        exact unclosedC_insert_lt hashF N σ.closed_set _ _ hnbmem rfl hcl
    | true =>
      -- neighbor already closed: compare lengths
      have hpcget : dictGet σ.past_len current.hash = Except.ok curr_path.length := by
        rw [dictGet_eq_pastD σ.past_len current.hash (hB.keys _ hcc), hpc]
      have hpnget : dictGet σ.past_len (hashF (do_action current.content a)) =
          Except.ok (pastD σ.past_len (hashF (do_action current.content a))) :=
        dictGet_eq_pastD _ _ (hB.keys _ hcl)
      by_cases hfire : curr_path.length + 1 <
          pastD σ.past_len (hashF (do_action current.content a))
      · -- the relax branch fires: strictly smaller stored length
        rw [processActs_cons_fire hashF heur goalS e current curr_path a rest σ
          curr_path.length (pastD σ.past_len (hashF (do_action current.content a)))
          (hv (do_action current.content a)) hcl hpcget hpnget hfire
          (hheur (do_action current.content a) σ.steps hnbv)]
        have hlen2 : (curr_path ++ [a]).length = curr_path.length + 1 := by
          rw [List.length_append]
          rfl
        have hclosed_eq : insertClosed σ.closed_set
            (hashF (do_action current.content a)) = σ.closed_set :=
          insertClosed_of_contains _ _ hcl
        have hB2 : BaseInv hashF hv N
            { σ with
              calls := σ.calls + 1
              fired := true
              past_len := dictSet σ.past_len (hashF (do_action current.content a))
                (curr_path.length + 1)
              open_set := heappush σ.open_set
                ⟨curr_path.length + 1 + hv (do_action current.content a),
                  mkState hashF (do_action current.content a), curr_path ++ [a]⟩
              closed_set := insertClosed σ.closed_set
                (hashF (do_action current.content a)) } := by
          refine ⟨costSorted_heappush _ _ hB.sorted, ?_, ?_⟩
          · intro en hen
            dsimp only [mkState] at hen ⊢
            rcases (mem_heappush _ _ en).mp hen with rfl | hold
            · refine ⟨hnbv, rfl, Or.inl (by dsimp only; rw [hlen2]),
                contains_insertClosed_self _ _, ?_⟩
              dsimp only
              rw [pastD_dictSet_self, hlen2]
            · obtain ⟨hval, hhash, hcost, hclm, hple⟩ := hB.entries en hold
              refine ⟨hval, hhash, hcost, contains_insertClosed_mono _ _ _ hclm, ?_⟩
              by_cases hhe : en.state.hash = hashF (do_action current.content a)
              · rw [hhe, pastD_dictSet_self]
                rw [hhe] at hple
                omega
              · rw [pastD_dictSet_other _ _ _ _ hhe]
                exact hple
          · intro h2 hc2
            dsimp only at hc2 ⊢
            rw [hclosed_eq] at hc2
            exact isSome_lookup_dictSet _ _ _ _ (hB.keys h2 hc2)
        have hS2 : StaleInvX hashF current.hash
            { σ with
              calls := σ.calls + 1
              fired := true
              past_len := dictSet σ.past_len (hashF (do_action current.content a))
                (curr_path.length + 1)
              open_set := heappush σ.open_set
                ⟨curr_path.length + 1 + hv (do_action current.content a),
                  mkState hashF (do_action current.content a), curr_path ++ [a]⟩
              closed_set := insertClosed σ.closed_set
                (hashF (do_action current.content a)) } := by
          intro en hen hne hstale
          dsimp only [mkState] at hen hne hstale ⊢
          rcases (mem_heappush _ _ en).mp hen with rfl | hold
          · dsimp only at hstale
            rw [pastD_dictSet_self, hlen2] at hstale
            exact absurd hstale (lt_irrefl _)
          · by_cases hhe : en.state.hash = hashF (do_action current.content a)
            · -- an older entry of the relaxed board: the pushed entry is fresher
              refine Or.inl ⟨⟨curr_path.length + 1 + hv (do_action current.content a),
                mkState hashF (do_action current.content a), curr_path ++ [a]⟩,
                (mem_heappush _ _ _).mpr (Or.inl rfl), ?_, ?_⟩
              · dsimp only [mkState]
                rw [hhe]
              · dsimp only [mkState]
                rw [hhe, pastD_dictSet_self, hlen2]
            · rw [pastD_dictSet_other _ _ _ _ hhe] at hstale
              rcases hS en hold hne hstale with ⟨en2, hen2, hh2, hl2⟩ | hcap
              · refine Or.inl ⟨en2, (mem_heappush _ _ en2).mpr (Or.inr hen2), hh2, ?_⟩
                rw [pastD_dictSet_other _ _ _ _ hhe]
                exact hl2
              · refine Or.inr ?_
                intro acts2 a2 hav2 hm2
                obtain ⟨hct, hpt⟩ := hcap acts2 a2 hav2 hm2
                refine ⟨contains_insertClosed_mono _ _ _ hct, ?_⟩
                rw [pastD_dictSet_other _ _ _ _ hhe]
                by_cases hte : hashF (do_action en.state.content a2) =
                    hashF (do_action current.content a)
                · rw [hte, pastD_dictSet_self]
                  rw [hte] at hpt
                  omega
                · rw [pastD_dictSet_other _ _ _ _ hte]
                  exact hpt
        obtain ⟨σ2, hp2, hB3, hS3, hcc2, hpc2, hsub3, hmono2, hnew2, hcl2, hW2, hpb2,
            hmle2⟩ :=
          ih _ hsub2 hB2 hS2
            (contains_insertClosed_mono _ _ _ hcc)
            (by dsimp only; rw [pastD_dictSet_other _ _ _ _ (Ne.symm hnbh)]; exact hpc)
        refine ⟨σ2, hp2, hB3, hS3, hcc2, hpc2, ?_, ?_, ?_, ?_, ?_, ?_, ?_⟩
        · intro en hen
          exact hsub3 en ((mem_heappush _ _ en).mpr (Or.inr hen))
        · intro h2 hc2
          exact hmono2 h2 (contains_insertClosed_mono _ _ _ hc2)
        · intro h2 hf ht
          cases hmid : (insertClosed σ.closed_set
              (hashF (do_action current.content a))).contains h2 with
          | true =>
            rw [hclosed_eq] at hmid
            rw [hmid] at hf
            exact absurd hf (by simp)
          | false => exact hnew2 h2 hmid ht
        · intro b hb
          rcases List.mem_cons.mp hb with rfl | hb2
          · exact hmono2 _ (contains_insertClosed_self _ _)
          · exact hcl2 b hb2
        · intro h2
          rcases hW2 h2 with h | h
          · by_cases hk : h2 = hashF (do_action current.content a)
            · right
              rw [h]
              dsimp only
              rw [hk, pastD_dictSet_self]
            · left
              rw [h]
              dsimp only
              rw [pastD_dictSet_other _ _ _ _ hk]
          · right
            exact h
        · intro b hb
          rcases List.mem_cons.mp hb with rfl | hb2
          · rcases hW2 (hashF (do_action current.content b)) with h | h
            · rw [h]
              dsimp only
              rw [pastD_dictSet_self]
            · rw [h]
          · exact hpb2 b hb2
        · refine MLE_trans hashF N _ _ _ (Or.inr (Or.inl ⟨?_, ?_⟩)) hmle2
          · show unclosedC hashF N (insertClosed σ.closed_set _) = _
            rw [hclosed_eq]
          · show closedS hashF N (insertClosed σ.closed_set _)
              (dictSet σ.past_len _ _) < closedS hashF N σ.closed_set σ.past_len
            rw [hclosed_eq]
            exact closedS_set_lt hashF N σ.closed_set σ.past_len _ _ hcl _
              hnbmem rfl hfire
      · -- skip: stored length already at most as good
        rw [processActs_cons_skip hashF heur goalS e current curr_path a rest σ
          curr_path.length (pastD σ.past_len (hashF (do_action current.content a)))
          hcl hpcget hpnget hfire]
        obtain ⟨σ2, hp2, hB3, hS3, hcc2, hpc2, hsub3, hmono2, hnew2, hcl2, hW2, hpb2,
            hmle2⟩ :=
          ih { σ with calls := σ.calls + 1 } hsub2 ⟨hB.sorted, hB.entries, hB.keys⟩
            hS hcc hpc
        refine ⟨σ2, hp2, hB3, hS3, hcc2, hpc2, hsub3, hmono2, hnew2, ?_, hW2, ?_, ?_⟩
        · intro b hb
          rcases List.mem_cons.mp hb with rfl | hb2
          · exact hmono2 _ hcl
          · exact hcl2 b hb2
        · intro b hb
          rcases List.mem_cons.mp hb with rfl | hb2
          · rcases hW2 (hashF (do_action current.content b)) with h | h
            · rw [h]
              dsimp only
              omega
            · rw [h]
          · exact hpb2 b hb2
        · exact MLE_trans hashF N _ _ _ (Or.inr (Or.inr ⟨rfl, rfl, rfl⟩)) hmle2


/-! ### The completeness witness along a solution trace -/

/-- Some board on the fixed solution trace has a queued entry, and every board
strictly later on the trace is still unclosed. -/
def WitInv (hashF : Grid → Int) (start : Grid) (q : List Action)
    (σ : SearchState) : Prop :=
  ∃ i, i ≤ q.length ∧
    (∃ en ∈ σ.open_set, en.state.content = gridSeq start q i) ∧
    ∀ j, i < j → j ≤ q.length →
      σ.closed_set.contains (hashF (gridSeq start q j)) = false

theorem wit_select (hashF : Grid → Int) (start : Grid) (q : List Action)
    (cl1 cl2 : List Int) (open2 : List Entry)
    (hnew : ∀ j, j ≤ q.length →
      cl1.contains (hashF (gridSeq start q j)) = false →
      cl2.contains (hashF (gridSeq start q j)) = true →
      ∃ en2 ∈ open2, en2.state.content = gridSeq start q j) :
    ∀ (k i : Nat), q.length - i ≤ k → i ≤ q.length →
      (∃ en ∈ open2, en.state.content = gridSeq start q i) →
      (∀ j, i < j → j ≤ q.length →
        cl1.contains (hashF (gridSeq start q j)) = false) →
      ∃ i2, i2 ≤ q.length ∧
        (∃ en ∈ open2, en.state.content = gridSeq start q i2) ∧
        ∀ j, i2 < j → j ≤ q.length →
          cl2.contains (hashF (gridSeq start q j)) = false := by
  intro k
  induction k with
  | zero =>
    intro i hk hi hent _
    exact ⟨i, hi, hent, fun j hji hjl => absurd hji (by omega)⟩
  | succ k ih =>
    intro i hk hi hent hsuf
    by_cases hall : ∀ j, i < j → j ≤ q.length →
        cl2.contains (hashF (gridSeq start q j)) = false
    · exact ⟨i, hi, hent, hall⟩
    · push_neg at hall
      obtain ⟨j0, hij0, hj0l, hc2⟩ := hall
      have hc2t : cl2.contains (hashF (gridSeq start q j0)) = true := by
        cases hb : cl2.contains (hashF (gridSeq start q j0)) with
        | false => exact absurd hb hc2
        | true => rfl
      exact ih j0 (by omega) hj0l (hnew j0 hj0l (hsuf j0 hij0 hj0l) hc2t)
        (fun j hj hjl => hsuf j (lt_trans hij0 hj) hjl)

theorem logRes_ok (N : Nat) (c goalG : Grid) (hc : ValidGrid N c)
    (hg : ValidGrid N goalG) (steps : Nat) :
    ∃ w, (if steps % 10000 = 0 then fixed_heuristic c goalG none (some 1) 1
      else Except.ok 0) = Except.ok w := by
  by_cases hm : steps % 10000 = 0
  · rw [if_pos hm, fixed_heuristic_valid_ok N c goalG none 1 1 hc hg]
    exact ⟨_, rfl⟩
  · rw [if_neg hm]
    exact ⟨0, rfl⟩

/-- A pop whose whole neighborhood is closed and relaxed only counts the
`do_action` calls: nothing is pushed or written. -/
theorem processActs_skip_all (hashF : Grid → Int)
    (heur : Grid → Grid → Nat → Option Nat → Except PyErr Nat)
    (goalS : State) (e : Option Nat) (current : State) (curr_path : List Action)
    (pc : Nat) :
    ∀ (acts : List Action) (σ : SearchState),
      dictGet σ.past_len current.hash = Except.ok pc →
      (∀ a ∈ acts,
        σ.closed_set.contains (hashF (do_action current.content a)) = true ∧
        ∃ pn, dictGet σ.past_len (hashF (do_action current.content a)) =
          Except.ok pn ∧ pn ≤ pc + 1) →
      ∃ c2, processActs hashF heur goalS e current curr_path acts σ =
        ({ σ with calls := c2 }, none) := by
  intro acts
  induction acts with
  | nil =>
    intro σ _ _
    exact ⟨σ.calls, processActs_nil hashF heur goalS e current curr_path σ⟩
  | cons a rest ih =>
    intro σ hpc hconds
    obtain ⟨hcl, pn, hpn, hle⟩ := hconds a (List.mem_cons_self a rest)
    rw [processActs_cons_skip hashF heur goalS e current curr_path a rest σ
      pc pn hcl hpc hpn (by omega)]
    obtain ⟨c2, hrec⟩ := ih { σ with calls := σ.calls + 1 }
      hpc (fun b hb => hconds b (List.mem_cons_of_mem a hb))
    exact ⟨c2, hrec⟩

/-- The search loop reaches the goal from any state satisfying the invariants:
by lexicographic induction on (unclosed boards, stored-length sum, heap size),
each pop either returns success now, skips everything (stale pop), or expands
(fresh pop) while strictly shrinking the measure. -/
theorem astarLoop_succeeds (hashF : Grid → Int) (hinj : Function.Injective hashF)
    (heur : Grid → Grid → Nat → Option Nat → Except PyErr Nat)
    (hv : Grid → Nat) (N : Nat) (e : Option Nat) (goalG : Grid)
    (hgv : ValidGrid N goalG)
    (hheur : ∀ g st, ValidGrid N g → heur g goalG st e = Except.ok (hv g))
    (start : Grid) (q : List Action) (hq : TracesTo start q goalG) :
    ∀ (u s o : Nat) (σ : SearchState),
      BaseInv hashF hv N σ → StaleInv hashF σ → WitInv hashF start q σ →
      unclosedC hashF N σ.closed_set = u →
      closedS hashF N σ.closed_set σ.past_len = s →
      σ.open_set.length = o →
      ∃ fuel p σf, astarLoop hashF heur (mkState hashF goalG) e fuel σ =
        (some (Except.ok (true, p)), σf) := by
  refine lex3_ind (fun u s o => ∀ σ : SearchState,
    BaseInv hashF hv N σ → StaleInv hashF σ → WitInv hashF start q σ →
    unclosedC hashF N σ.closed_set = u →
    closedS hashF N σ.closed_set σ.past_len = s →
    σ.open_set.length = o →
    ∃ fuel p σf, astarLoop hashF heur (mkState hashF goalG) e fuel σ =
      (some (Except.ok (true, p)), σf)) ?_
  intro u s o IH σ hB hS hW hu hs ho
  cases hopen : σ.open_set with
  | nil =>
    obtain ⟨i, hi, ⟨en, hen, _⟩, _⟩ := hW
    rw [hopen] at hen
    exact absurd hen (List.not_mem_nil en)
  | cons en rest =>
    have henm : en ∈ σ.open_set := by
      rw [hopen]
      exact List.mem_cons_self en rest
    obtain ⟨henv, henh, henc, hencl, henp⟩ := hB.entries en henm
    obtain ⟨w, hlog⟩ := logRes_ok N en.state.content goalG henv hgv σ.steps
    by_cases hgoal : en.state.hash = (mkState hashF goalG).hash
    · exact ⟨1, en.path, σ, astarLoop_pop_goal hashF heur (mkState hashF goalG)
        e 0 σ en rest w hopen hlog hgoal⟩
    · have hcne : en.state.content ≠ goalG := by
        intro hcon
        apply hgoal
        rw [henh, hcon]
        rfl
      have hN : 0 < N := validGrid_ne_pos N en.state.content goalG henv hgv hcne
      obtain ⟨acts, hacts⟩ := available_actions_ok_of_valid N en.state.content henv hN
      obtain ⟨i, hi, ⟨enw, henw, hcw⟩, hsuf⟩ := hW
      have hresto : rest.length + 1 = o := by
        rw [← ho, hopen]
        rfl
      rcases Nat.lt_or_ge (pastD σ.past_len en.state.hash) en.path.length with
        hstale | hge
      · -- STALE pop: the cap holds, nothing is pushed
        have hcap : ∀ a2 ∈ acts,
            σ.closed_set.contains (hashF (do_action en.state.content a2)) = true ∧
            pastD σ.past_len (hashF (do_action en.state.content a2)) ≤
              pastD σ.past_len en.state.hash + 1 := by
          rcases hS en henm hstale with ⟨en2, hen2, hh2, hl2⟩ | hcap2
          · exfalso
            rw [hopen] at hen2
            rcases List.mem_cons.mp hen2 with rfl | hen2r
            · omega
            · have hsort : CostSorted (en :: rest) := hopen ▸ hB.sorted
              have hle := (List.pairwise_cons.mp hsort).1 en2 hen2r
              obtain ⟨hv2, hh2c, hc2, _, _⟩ := hB.entries en2
                (by rw [hopen]; exact List.mem_cons_of_mem en hen2r)
              have hsamec : en2.state.content = en.state.content :=
                hinj (by rw [← hh2c, hh2, henh])
              have henlen : 1 ≤ en.path.length := by omega
              have hencost : en.cost = en.path.length + hv en.state.content := by
                rcases henc with h | ⟨h0, hnil⟩
                · exact h
                · rw [hnil] at henlen
                  simp at henlen
              rcases hc2 with h2c | ⟨h20, _⟩
              · rw [hsamec, hl2] at h2c
                omega
              · omega
          · exact fun a2 ha2 => hcap2 acts a2 hacts ha2
        have hpcget : dictGet σ.past_len en.state.hash =
            Except.ok (pastD σ.past_len en.state.hash) :=
          dictGet_eq_pastD _ _ (hB.keys _ hencl)
        obtain ⟨c2, hpa⟩ := processActs_skip_all hashF heur (mkState hashF goalG)
          e en.state en.path (pastD σ.past_len en.state.hash) acts
          { σ with open_set := rest } hpcget
          (fun a2 ha2 => ⟨(hcap a2 ha2).1,
            pastD σ.past_len (hashF (do_action en.state.content a2)),
            dictGet_eq_pastD _ _ (hB.keys _ (hcap a2 ha2).1), (hcap a2 ha2).2⟩)
        have hwit_rest : enw ∈ rest := by
          rw [hopen] at henw
          rcases List.mem_cons.mp henw with rfl | h
          · exfalso
            rcases Nat.lt_or_ge i q.length with hilt | hige
            · obtain ⟨actsT, havT, hmemT, hstepT⟩ := TracesTo_step hq i hilt
              rw [← hcw] at havT hstepT
              rw [hacts] at havT
              injection havT with havT
              subst havT
              have hclosedT := (hcap _ hmemT).1
              rw [hstepT] at hclosedT
              rw [hsuf (i + 1) (by omega) (by omega)] at hclosedT
              exact Bool.false_ne_true hclosedT
            · exact hcne (by rw [hcw, le_antisymm hi hige]; exact gridSeq_full hq)
          · exact h
        have hsort2 : CostSorted rest :=
          (List.pairwise_cons.mp (hopen ▸ hB.sorted : CostSorted (en :: rest))).2
        obtain ⟨fuel, p, σf, hrun⟩ := IH u s rest.length
          (Or.inr ⟨rfl, Or.inr ⟨rfl, by omega⟩⟩)
          { σ with open_set := rest, calls := c2, steps := σ.steps + 1 }
          ⟨hsort2, fun z hz => hB.entries z (by
              rw [hopen]
              exact List.mem_cons_of_mem en hz), hB.keys⟩
          (by
            intro z hz hstz
            rcases hS z (by rw [hopen]; exact List.mem_cons_of_mem en hz) hstz with
              ⟨en2, hen2, hh2, hl2⟩ | hcap2
            · rw [hopen] at hen2
              rcases List.mem_cons.mp hen2 with rfl | hen2r
              · exfalso
                rw [← hh2] at hl2
                omega
              · exact Or.inl ⟨en2, hen2r, hh2, hl2⟩
            · exact Or.inr hcap2)
          ⟨i, hi, ⟨enw, hwit_rest, hcw⟩, hsuf⟩
          hu hs rfl
        refine ⟨fuel + 1, p, σf, ?_⟩
        rw [astarLoop_pop_expand hashF heur (mkState hashF goalG) e fuel σ
          _ en rest w acts hopen hlog hgoal hacts hpa]
        exact hrun
      · -- FRESH pop: expand via the master lemma
        have hfr : pastD σ.past_len en.state.hash = en.path.length :=
          le_antisymm henp hge
        have hsort2 : CostSorted rest :=
          (List.pairwise_cons.mp (hopen ▸ hB.sorted : CostSorted (en :: rest))).2
        have hB' : BaseInv hashF hv N { σ with open_set := rest } :=
          ⟨hsort2, fun z hz => hB.entries z (by
              rw [hopen]
              exact List.mem_cons_of_mem en hz), hB.keys⟩
        have hSX : StaleInvX hashF en.state.hash { σ with open_set := rest } := by
          intro z hz hne hstz
          rcases hS z (by rw [hopen]; exact List.mem_cons_of_mem en hz) hstz with
            ⟨en2, hen2, hh2, hl2⟩ | hcap2
          · rw [hopen] at hen2
            rcases List.mem_cons.mp hen2 with rfl | hen2r
            · exact absurd hh2.symm hne
            · exact Or.inl ⟨en2, hen2r, hh2, hl2⟩
          · exact Or.inr hcap2
        obtain ⟨σ2, hp2, hB3, hSX3, hcc2, hpc2, hsub3, hmono2, hnew2, hcl2, hW2,
            hpb2, hmle2⟩ :=
          processActs_master hashF hinj heur hv N hN (mkState hashF goalG) e
            hheur en.state en.path acts henv henh hacts acts
            { σ with open_set := rest } (fun a2 ha2 => ha2) hB' hSX hencl hfr
        have hS3 : StaleInv hashF σ2 := by
          intro z hz hstz
          by_cases hznh : z.state.hash = en.state.hash
          · right
            intro acts2 a2 hav2 hm2
            obtain ⟨_, hzh, _, _, _⟩ := hB3.entries z hz
            have hzc : z.state.content = en.state.content :=
              hinj (by rw [← hzh, hznh, henh])
            rw [hzc] at hav2
            rw [hacts] at hav2
            injection hav2 with hav2
            subst hav2
            rw [hzc, hznh, hpc2]
            exact ⟨hcl2 a2 hm2, hpb2 a2 hm2⟩
          · exact hSX3 z hz hznh hstz
        have hnew3 : ∀ j, j ≤ q.length →
            σ.closed_set.contains (hashF (gridSeq start q j)) = false →
            σ2.closed_set.contains (hashF (gridSeq start q j)) = true →
            ∃ en2 ∈ σ2.open_set, en2.state.content = gridSeq start q j := by
          intro j hj hf ht
          obtain ⟨en2, hen2, hh2⟩ := hnew2 _ hf ht
          obtain ⟨_, hh2c, _, _, _⟩ := hB3.entries en2 hen2
          exact ⟨en2, hen2, hinj (by rw [← hh2c, hh2])⟩
        have hW3 : WitInv hashF start q σ2 := by
          rw [hopen] at henw
          rcases List.mem_cons.mp henw with rfl | henwr
          · rcases Nat.lt_or_ge i q.length with hilt | hige
            · obtain ⟨actsT, havT, hmemT, hstepT⟩ := TracesTo_step hq i hilt
              rw [← hcw] at havT hstepT
              rw [hacts] at havT
              injection havT with havT
              subst havT
              have hclT : σ2.closed_set.contains
                  (hashF (gridSeq start q (i + 1))) = true := by
                rw [← hstepT]
                exact hcl2 _ hmemT
              have hfT : σ.closed_set.contains
                  (hashF (gridSeq start q (i + 1))) = false :=
                hsuf (i + 1) (by omega) (by omega)
              exact wit_select hashF start q σ.closed_set σ2.closed_set
                σ2.open_set hnew3 (q.length - (i + 1)) (i + 1) le_rfl (by omega)
                (hnew3 (i + 1) (by omega) hfT hclT)
                (fun j hj hjl => hsuf j (by omega) hjl)
            · exact absurd (by rw [hcw, le_antisymm hi hige]; exact gridSeq_full hq)
                hcne
          · exact wit_select hashF start q σ.closed_set σ2.closed_set
              σ2.open_set hnew3 (q.length - i) i le_rfl hi
              ⟨enw, hsub3 enw henwr, hcw⟩ hsuf
        rcases hmle2 with hlt1 | ⟨heq1, hlt2⟩ | ⟨heq1, heq2, hopeq⟩
        · obtain ⟨fuel, p, σf, hrun⟩ := IH (unclosedC hashF N σ2.closed_set)
            (closedS hashF N σ2.closed_set σ2.past_len) σ2.open_set.length
            (Or.inl (by rw [← hu]; exact hlt1))
            { σ2 with steps := σ2.steps + 1 }
            ⟨hB3.sorted, hB3.entries, hB3.keys⟩ hS3 hW3 rfl rfl rfl
          refine ⟨fuel + 1, p, σf, ?_⟩
          rw [astarLoop_pop_expand hashF heur (mkState hashF goalG) e fuel σ
            σ2 en rest w acts hopen hlog hgoal hacts hp2]
          exact hrun
        · obtain ⟨fuel, p, σf, hrun⟩ := IH (unclosedC hashF N σ2.closed_set)
            (closedS hashF N σ2.closed_set σ2.past_len) σ2.open_set.length
            (Or.inr ⟨heq1.trans hu, Or.inl (by rw [← hs]; exact hlt2)⟩)
            { σ2 with steps := σ2.steps + 1 }
            ⟨hB3.sorted, hB3.entries, hB3.keys⟩ hS3 hW3 rfl rfl rfl
          refine ⟨fuel + 1, p, σf, ?_⟩
          rw [astarLoop_pop_expand hashF heur (mkState hashF goalG) e fuel σ
            σ2 en rest w acts hopen hlog hgoal hacts hp2]
          exact hrun
        · obtain ⟨fuel, p, σf, hrun⟩ := IH (unclosedC hashF N σ2.closed_set)
            (closedS hashF N σ2.closed_set σ2.past_len) σ2.open_set.length
            (Or.inr ⟨heq1.trans hu, Or.inr ⟨heq2.trans hs, by
              rw [hopeq]
              show rest.length < o
              omega⟩⟩)
            { σ2 with steps := σ2.steps + 1 }
            ⟨hB3.sorted, hB3.entries, hB3.keys⟩ hS3 hW3 rfl rfl rfl
          refine ⟨fuel + 1, p, σf, ?_⟩
          rw [astarLoop_pop_expand hashF heur (mkState hashF goalG) e fuel σ
            σ2 en rest w acts hopen hlog hgoal hacts hp2]
          exact hrun


/-! ### C1: completeness of the search on solvable instances -/

theorem gridList_get (s : Grid) (q : List Action)
    (c : Fin (gridList s q).length) : (gridList s q).get c = gridSeq s q c.val := by
  simp [gridList, List.get_eq_getElem]

theorem encList_injective : Function.Injective encList := by
  intro l1 l2 h
  induction l1 generalizing l2 with
  | nil =>
    cases l2 with
    | nil => rfl
    | cons y ys =>
      exfalso
      unfold encList at h
      simp only [List.foldr] at h
      omega
  | cons x xs ih =>
    cases l2 with
    | nil =>
      exfalso
      unfold encList at h
      simp only [List.foldr] at h
      omega
    | cons y ys =>
      unfold encList at h
      simp only [List.foldr] at h
      have h2 : Nat.pair x (List.foldr (fun a r => Nat.pair a r + 1) 0 xs) =
          Nat.pair y (List.foldr (fun a r => Nat.pair a r + 1) 0 ys) := by
        omega
      obtain ⟨hxy, htl⟩ := Nat.pair_eq_pair.mp h2
      rw [hxy, ih htl]

theorem gridHash_injective : Function.Injective gridHash := by
  intro g1 g2 h
  unfold gridHash at h
  have h2 : encList (g1.map encList) = encList (g2.map encList) :=
    Nat.cast_injective h
  exact (List.map_injective_iff.mpr encList_injective) (encList_injective h2)

/-- C1: for every solvable start grid and the conventional goal grid, `astar`
terminates with `success = True`, and the returned path is valid: it is a legal
move trace and applying its Actions in order with `do_action` from the start
grid reproduces the goal grid exactly.  The hash is any injective state hash
(modelling CPython's `hash(tobytes())`) and the heuristic is any
step-independent heuristic total on valid grids (e.g. `fixed_heuristic` at a
fixed exponent, the strategy behind the notebook's reported results). -/
theorem astar_solves_solvable :
    ∀ (hashF : Grid → Int), Function.Injective hashF →
    ∀ (heur : Grid → Grid → Nat → Option Nat → Except PyErr Nat)
      (hv : Grid → Nat) (N : Nat) (start : Grid) (e : Option Nat),
    (∀ g st, ValidGrid N g → heur g (set_goal N) st e = Except.ok (hv g)) →
    ValidGrid N start →
    (∃ p0, TracesTo start p0 (set_goal N)) →
    ∃ fuel p σf, astar hashF heur start (set_goal N) e fuel =
        (some (Except.ok (true, p)), σf) ∧
      TracesTo start p (set_goal N) ∧ applyActs start p = set_goal N := by
  intro hashF hinj heur hv N start e hheur hsv hsolv
  obtain ⟨p0, hp0⟩ := hsolv
  have hN : 0 < N := by
    rcases Nat.eq_zero_or_pos N with rfl | h
    · exfalso
      have hstart : start = [] := validGrid_zero start hsv
      subst hstart
      have hg0 : set_goal 0 = [[0]] := by decide
      rw [hg0] at hp0
      cases p0 with
      | nil => cases hp0
      | cons a p =>
        cases hp0 with
        | cons hav hmem h2 =>
          rw [show available_actions ([] : Grid) = Except.error PyErr.indexError
            from rfl] at hav
          exact absurd hav (by simp)
    · exact h
  have hgv : ValidGrid N (set_goal N) := validGrid_set_goal N hN
  obtain ⟨q, hq, hnd⟩ := exists_nodup_trace start (set_goal N) p0.length p0
    le_rfl hp0
  have hlenEq : (gridList start q).length = q.length + 1 := by
    simp [gridList]
  have hTne : ∀ j, 0 < j → j ≤ q.length → gridSeq start q j ≠ start := by
    intro j hj hjl hcon
    have h0 : (gridList start q).get ⟨0, by omega⟩ = start := by
      rw [gridList_get]
      rfl
    have hj2 : (gridList start q).get ⟨j, by omega⟩ = start := by
      rw [gridList_get]
      exact hcon
    have hfin := List.nodup_iff_injective_get.mp hnd (h0.trans hj2.symm)
    have hval : (0 : Nat) = j := congrArg Fin.val hfin
    omega
  have hB0 : BaseInv hashF hv N
      { open_set := [⟨0, mkState hashF start, []⟩],
        closed_set := [(mkState hashF start).hash],
        past_len := [((mkState hashF start).hash, 0)],
        steps := 0, calls := 0, fired := false } := by
    refine ⟨?_, ?_, ?_⟩
    · simp [CostSorted]
    · intro en hen
      rcases List.mem_singleton.mp hen with rfl
      refine ⟨hsv, rfl, Or.inr ⟨rfl, rfl⟩, ?_, ?_⟩
      · exact (contains_iff_mem _ _).mpr (List.mem_singleton.mpr rfl)
      · simp [pastD, List.lookup]
    · intro h2 hc2
      rcases List.mem_singleton.mp ((contains_iff_mem _ _).mp hc2) with rfl
      simp [List.lookup]
  have hS0 : StaleInv hashF
      { open_set := [⟨0, mkState hashF start, []⟩],
        closed_set := [(mkState hashF start).hash],
        past_len := [((mkState hashF start).hash, 0)],
        steps := 0, calls := 0, fired := false } := by
    intro en hen hst
    rcases List.mem_singleton.mp hen with rfl
    simp [pastD, List.lookup] at hst
  have hW0 : WitInv hashF start q
      { open_set := [⟨0, mkState hashF start, []⟩],
        closed_set := [(mkState hashF start).hash],
        past_len := [((mkState hashF start).hash, 0)],
        steps := 0, calls := 0, fired := false } := by
    refine ⟨0, Nat.zero_le _, ⟨⟨0, mkState hashF start, []⟩,
      List.mem_singleton.mpr rfl, rfl⟩, ?_⟩
    intro j hj hjl
    cases hb : List.contains [(mkState hashF start).hash]
        (hashF (gridSeq start q j)) with
    | false => rfl
    | true =>
      exfalso
      rcases List.mem_singleton.mp ((contains_iff_mem _ _).mp hb) with hbe
      have hbe2 : hashF (gridSeq start q j) = hashF start := hbe
      exact hTne j hj hjl (hinj hbe2)
  have hE0 : EntryInv hashF start
      { open_set := [⟨0, mkState hashF start, []⟩],
        closed_set := [(mkState hashF start).hash],
        past_len := [((mkState hashF start).hash, 0)],
        steps := 0, calls := 0, fired := false } := by
    intro en hen
    rcases List.mem_singleton.mp hen with rfl
    exact ⟨rfl, TracesTo.nil start⟩
  obtain ⟨fuel, p, σf, hrun⟩ := astarLoop_succeeds hashF hinj heur hv N e
    (set_goal N) hgv hheur start q hq
    (unclosedC hashF N [(mkState hashF start).hash])
    (closedS hashF N [(mkState hashF start).hash]
      [((mkState hashF start).hash, 0)]) 1
    { open_set := [⟨0, mkState hashF start, []⟩],
      closed_set := [(mkState hashF start).hash],
      past_len := [((mkState hashF start).hash, 0)],
      steps := 0, calls := 0, fired := false }
    hB0 hS0 hW0 rfl rfl rfl
  obtain ⟨gfin, htr, hhash⟩ := astarLoop_sound hashF heur
    (mkState hashF (set_goal N)) e start fuel
    { open_set := [⟨0, mkState hashF start, []⟩],
      closed_set := [(mkState hashF start).hash],
      past_len := [((mkState hashF start).hash, 0)],
      steps := 0, calls := 0, fired := false } σf p hE0 hrun
  have hge : gfin = set_goal N := hinj hhash
  subst hge
  refine ⟨fuel, p, σf, ?_, htr, TracesTo_applyActs htr⟩
  rw [astar_eq_loop]
  exact hrun

/-- Witness for C1: the one-move 2-puzzle instance, solved with the injective
pairing hash and the fixed heuristic at `exp = 1`. -/
theorem astar_solves_solvable_witness :
    ∃ fuel p σf, astar gridHash fixedHeur [[1, 2], [0, 3]] (set_goal 2)
        (some 1) fuel = (some (Except.ok (true, p)), σf) ∧
      TracesTo [[1, 2], [0, 3]] p (set_goal 2) ∧
      applyActs [[1, 2], [0, 3]] p = set_goal 2 :=
  astar_solves_solvable gridHash gridHash_injective fixedHeur
    (fun g => mdSum g (set_goal 2) 1 ^ 1) 2 [[1, 2], [0, 3]] (some 1)
    (fun g st hg =>
      fixed_heuristic_valid_ok 2 g (set_goal 2) (some st) 1 1 hg (by decide))
    (by decide)
    ⟨[Action.mk (1, 0) (1, 1)],
      TracesTo.cons rfl (by decide) (TracesTo.nil (set_goal 2))⟩

end NPuzzle
